import Mathlib

/-!
Verification of the polygon clipping module (polyclip.py), a Python
implementation of the Greiner-Hormann polygon clipping algorithm.

The Python source is shallowly embedded below:
* coordinates are modelled by rational numbers;
* the circular doubly linked list of `Vertex` objects is modelled, for the
  clipping pipeline, as a `List Vertex` in ring order starting at the
  polygon's `first` node (the head of the list); object identity is
  modelled by a `vid : Nat` field, and the cross-polygon `neighbour`
  pointer by the `vid` of the partner vertex;
* the pointer-level `Polygon.add` / `Polygon.insert` operations are
  additionally modelled exactly at the pointer level (`LinkedRing`
  below) in order to verify the linked-list invariant;
* unbounded `while` loops are modelled with explicit fuel; every fuel
  bound used is sufficient for the loops of the program on the states it
  actually reaches, and the theorems below never depend on fuel running
  out.
-/

/-- Coordinate pair of a vertex, as used by the `intersect` routine
(which reads only the `x` and `y` fields of the Python `Vertex`). -/
structure Point where
  x : ℚ
  y : ℚ
deriving DecidableEq, Repr

/-- Embedding of `intersect(s1, s2, c1, c2)` from polyclip.py.  Returns the
intersection point of the two supporting lines together with the subject
and clipper parameters `us`, `uc`, or `none` exactly as the Python code
returns `None` (parallel lines, degenerate endpoint touch, or parameters
out of range). -/
def intersect (s1 s2 c1 c2 : Point) : Option (Point × ℚ × ℚ) :=
  let den := (c2.y - c1.y) * (s2.x - s1.x) - (c2.x - c1.x) * (s2.y - s1.y)
  if den = 0 then none
  else
    let us := ((c2.x - c1.x) * (s1.y - c1.y) - (c2.y - c1.y) * (s1.x - c1.x)) / den
    let uc := ((s2.x - s1.x) * (s1.y - c1.y) - (s2.y - s1.y) * (s1.x - c1.x)) / den
    if ((us = 0 ∨ us = 1) ∧ (0 ≤ uc ∧ uc ≤ 1)) ∨
       ((uc = 0 ∨ uc = 1) ∧ (0 ≤ us ∧ us ≤ 1)) then
      -- "whoops! degenerate case!" : the Python code prints a diagnostic
      -- and reports no intersection.
      none
    else if (0 < us ∧ us < 1) ∧ (0 < uc ∧ uc < 1) then
      some (⟨s1.x + us * (s2.x - s1.x), s1.y + us * (s2.y - s1.y)⟩, us, uc)
    else none

/-- Branch-free characterisation of `intersect`: the degenerate-endpoint
branch is subsumed, leaving a single guard. -/
theorem intersect_eq_ite (s1 s2 c1 c2 : Point) :
    intersect s1 s2 c1 c2 =
      (let den := (c2.y - c1.y) * (s2.x - s1.x) - (c2.x - c1.x) * (s2.y - s1.y)
       let us := ((c2.x - c1.x) * (s1.y - c1.y) - (c2.y - c1.y) * (s1.x - c1.x)) / den
       let uc := ((s2.x - s1.x) * (s1.y - c1.y) - (s2.y - s1.y) * (s1.x - c1.x)) / den
       if den ≠ 0 ∧ (0 < us ∧ us < 1) ∧ (0 < uc ∧ uc < 1) then
         some (⟨s1.x + us * (s2.x - s1.x), s1.y + us * (s2.y - s1.y)⟩, us, uc)
       else none) := by
  unfold intersect
  by_cases hden :
      (c2.y - c1.y) * (s2.x - s1.x) - (c2.x - c1.x) * (s2.y - s1.y) = 0
  · simp [hden]
  · simp only [hden, if_false, ne_eq, not_false_eq_true, true_and]
    set us := ((c2.x - c1.x) * (s1.y - c1.y) - (c2.y - c1.y) * (s1.x - c1.x)) /
      ((c2.y - c1.y) * (s2.x - s1.x) - (c2.x - c1.x) * (s2.y - s1.y)) with hus
    set uc := ((s2.x - s1.x) * (s1.y - c1.y) - (s2.y - s1.y) * (s1.x - c1.x)) /
      ((c2.y - c1.y) * (s2.x - s1.x) - (c2.x - c1.x) * (s2.y - s1.y)) with huc
    by_cases hdeg : ((us = 0 ∨ us = 1) ∧ (0 ≤ uc ∧ uc ≤ 1)) ∨
        ((uc = 0 ∨ uc = 1) ∧ (0 ≤ us ∧ us ≤ 1))
    · have hns : ¬ ((0 < us ∧ us < 1) ∧ (0 < uc ∧ uc < 1)) := by
        rcases hdeg with ⟨h01, _⟩ | ⟨h01, _⟩
        · rcases h01 with h | h <;> rintro ⟨⟨ha, hb⟩, -⟩ <;> rw [h] at ha hb <;> linarith
        · rcases h01 with h | h <;> rintro ⟨-, ⟨ha, hb⟩⟩ <;> rw [h] at ha hb <;> linarith
      simp [hdeg, hns]
    · simp [hdeg]

/-- C1: the segment intersection test returns a result (point plus both
parameters) if and only if the denominator is nonzero and both parametric
positions lie strictly inside the open interval (0,1); in that case the
returned point is the linear interpolation along the subject edge at
parameter `us`; in every other case (zero denominator, a parameter exactly
0 or 1, or an out-of-range parameter) it reports no intersection. -/
theorem intersect_characterisation (s1 s2 c1 c2 : Point) :
    intersect s1 s2 c1 c2 =
      (let den := (c2.y - c1.y) * (s2.x - s1.x) - (c2.x - c1.x) * (s2.y - s1.y)
       let us := ((c2.x - c1.x) * (s1.y - c1.y) - (c2.y - c1.y) * (s1.x - c1.x)) / den
       let uc := ((s2.x - s1.x) * (s1.y - c1.y) - (s2.y - s1.y) * (s1.x - c1.x)) / den
       if den ≠ 0 ∧ (0 < us ∧ us < 1) ∧ (0 < uc ∧ uc < 1) then
         some (⟨s1.x + us * (s2.x - s1.x), s1.y + us * (s2.y - s1.y)⟩, us, uc)
       else none) :=
  intersect_eq_ite s1 s2 c1 c2

/-- Embedding of the Python `Vertex` object.  `x`, `y`, `alpha`, `intersect`,
`entry`, `checked` are the object's scalar attributes.  Object identity is
modelled by `vid` (two distinct Python objects get distinct `vid`s), and the
cross-polygon `neighbour` pointer is modelled as the `vid` of the partner
vertex (`none` for Python's `None`).  The intra-polygon `next`/`prev`
pointers are modelled by the position of the vertex in the polygon's list
(ring order starting at the polygon's `first` node). -/
structure Vertex where
  x : ℚ
  y : ℚ
  alpha : ℚ
  intersect : Bool
  entry : Bool
  checked : Bool
  neighbour : Option Nat
  vid : Nat
deriving DecidableEq, Repr

instance : Inhabited Vertex := ⟨⟨0, 0, 0, false, true, false, none, 0⟩⟩

instance : Inhabited Point := ⟨⟨0, 0⟩⟩

/-- Coordinate pair of a vertex (the only data `intersect` reads). -/
def Vertex.pt (v : Vertex) : Point := ⟨v.x, v.y⟩

/-- Building a polygon from raw input points, as done by `clip_polygon`
via repeated `Polygon.add(Vertex(s))`: the ring, listed from `first`, is
the input order, and every vertex carries the Python constructor defaults
`alpha=0, intersect=False, entry=True, checked=False, neighbour=None`.
Identities are `base`, `base+1`, ... so that the two input polygons can be
built with disjoint identity ranges. -/
def buildPoly (base : Nat) (pts : List Point) : List Vertex :=
  (List.range pts.length).map fun i =>
    let p := pts.getD i default
    ⟨p.x, p.y, 0, false, true, false, none, base + i⟩

/-- Embedding of `Polygon.next(v)`: starting at ring position `i`, advance
through `next` links while the current vertex is an intersection vertex,
returning the position of the first non-intersection vertex reached.
Fuelled; the program only runs it on rings containing a non-intersection
vertex within reach, where the fuel `p.length` used below suffices. -/
def skipInter (p : List Vertex) : Nat → Nat → Nat
  | 0, i => i
  | fuel + 1, i =>
      if (p.getD i default).intersect then skipInter p fuel ((i + 1) % p.length)
      else i

/-- Ring position of `Polygon.next(v.next)` for the vertex at position `i`:
the next non-intersection vertex strictly after `i` (cyclically). -/
def nextOrigIdx (p : List Vertex) (i : Nat) : Nat :=
  skipInter p p.length ((i + 1) % p.length)

/-- Embedding of `Vertex.isInside(poly)`: count, over every vertex `q` of
the ring that is not an intersection vertex, the successes of
`intersect(self, infinity, q, poly.next(q.next))` where `infinity` is the
synthetic ray endpoint `(1000000, self.y)`; the vertex is inside iff the
count is odd.  (Declared outside the `Vertex` namespace because the
`Vertex.intersect` field projection would otherwise shadow the
`intersect` routine.) -/
def isInside (self : Vertex) (poly : List Vertex) : Bool :=
  let infinityPt : Point := ⟨1000000, self.y⟩
  let winding_number := (List.range poly.length).countP fun i =>
    let q := poly.getD i default
    !q.intersect &&
      (intersect self.pt infinityPt q.pt (poly.getD (nextOrigIdx poly i) default).pt).isSome
  winding_number % 2 != 0

/-- Embedding of the phase-2 labelling loop of `Polygon.clip`: traverse the
ring in order; each intersection vertex receives `entry := toggle` and the
toggle is flipped; other vertices are untouched. -/
def labelEntries (toggle : Bool) : List Vertex → List Vertex
  | [] => []
  | v :: vs =>
      if v.intersect then { v with entry := toggle } :: labelEntries (!toggle) vs
      else v :: labelEntries toggle vs

/-- Walk of `Polygon.insert(vertex, start, end)`: starting at `start`
(position `i`), advance while the current vertex is not `end` and its
`alpha` is less than the inserted vertex's `alpha`; returns the position
the new vertex is spliced in front of. -/
def insPos (p : List Vertex) (a : ℚ) (endVid : Nat) : Nat → Nat → Nat
  | 0, i => i
  | fuel + 1, i =>
      if (p.getD i default).vid = endVid ∨ ¬ ((p.getD i default).alpha < a) then i
      else insPos p a endVid fuel ((i + 1) % p.length)

/-- Embedding of `Polygon.insert(vertex, start, end)` on the ring list:
walk from `start`, then splice the vertex in front of the stopping
position.  Splicing in front of ring position 0 (the `first` anchor, only
reached by wrapping past the end of the list) appends at the end of the
list, which is the same ring. -/
def ringInsert (p : List Vertex) (v : Vertex) (startVid endVid : Nat) : List Vertex :=
  let i0 := p.findIdx (fun w => w.vid == startVid)
  let j := insPos p v.alpha endVid (p.length + 1) i0
  if j = 0 then p ++ [v] else p.take j ++ v :: p.drop j

/-- Joint state of the two polygons during clipping, together with the
fresh-identity counter used to model allocation of new Python objects. -/
structure ClipState where
  subj : List Vertex
  clip : List Vertex
  ctr : Nat
deriving DecidableEq, Repr

/-- One inner step of phase 1 of `Polygon.clip`, for a non-intersection
subject vertex `sv` and non-intersection clip vertex `cv`: run
`intersect(s, self.next(s.next), c, clip.next(c.next))` and, on success,
create the two mutually-linked intersection vertices and splice each into
its polygon.  The edge endpoints are recomputed from the current rings
(`next` skips of already-inserted intersection vertices), exactly as the
Python code does at each call. -/
def phase1Pair (sv cv : Vertex) (st : ClipState) : ClipState :=
  let si := st.subj.findIdx (fun w => w.vid == sv.vid)
  let s2 := st.subj.getD (nextOrigIdx st.subj si) default
  let ci := st.clip.findIdx (fun w => w.vid == cv.vid)
  let c2 := st.clip.getD (nextOrigIdx st.clip ci) default
  match intersect sv.pt s2.pt cv.pt c2.pt with
  | none => st
  | some (i, alphaS, alphaC) =>
      let iS : Vertex := ⟨i.x, i.y, alphaS, true, false, false, some (st.ctr + 1), st.ctr⟩
      let iC : Vertex := ⟨i.x, i.y, alphaC, true, false, false, some st.ctr, st.ctr + 1⟩
      { subj := ringInsert st.subj iS sv.vid s2.vid,
        clip := ringInsert st.clip iC cv.vid c2.vid,
        ctr := st.ctr + 2 }

/-- Phase 1 of `Polygon.clip`.  The Python loops iterate over the live
rings while inserting into them, but every vertex inserted during the scan
carries `intersect=True` and is therefore skipped by both loops' guards,
insertion never changes the `first` anchor, and the relative order of the
original vertices is never changed; hence the pairs actually processed are
exactly the non-intersection vertices of the two initial rings, in initial
ring order, which is what the folds below iterate over.  The edges passed
to `intersect` are recomputed from the evolving state at each step. -/
def phase1 (subjInit clipInit : List Vertex) (ctr0 : Nat) : ClipState :=
  subjInit.foldl
    (fun st sv =>
      if sv.intersect then st
      else clipInit.foldl
        (fun st cv => if cv.intersect then st else phase1Pair sv cv st) st)
    ⟨subjInit, clipInit, ctr0⟩

/-- Fresh copy of a vertex, as built by `Vertex(current)` in phase 3: only
the coordinates are taken over; `alpha`, `intersect`, `entry`, `checked`
and `neighbour` are the constructor defaults, and the copy is a new object
(fresh identity `k`). -/
def copyV (v : Vertex) (k : Nat) : Vertex :=
  ⟨v.x, v.y, 0, false, true, false, none, k⟩

/-- Lookup of a vertex by identity among the nodes of both rings
(dereferencing a modelled pointer). -/
def lookupVid (l : List Vertex) (vid : Nat) : Option Vertex :=
  l.find? (fun w => w.vid == vid)

/-- Identities marked by `Vertex.setChecked()` called on the vertex with
identity `vid`: the vertex itself is always marked, and the recursion
`if self.neighbour and not self.neighbour.checked: self.neighbour.setChecked()`
follows the neighbour chain, stopping at a missing neighbour or at a
vertex already checked (either before the call, or marked earlier in this
very cascade, which is what the accumulator records). -/
def setCheckedChain (s c : List Vertex) : Nat → Nat → List Nat → List Nat
  | 0, _, acc => acc
  | fuel + 1, vid, acc =>
      let acc2 := vid :: acc
      match lookupVid (s ++ c) vid with
      | none => acc2
      | some v =>
          match v.neighbour with
          | none => acc2
          | some nv =>
              match lookupVid (s ++ c) nv with
              | none => acc2
              | some w => if nv ∈ acc2 ∨ w.checked then acc2
                          else setCheckedChain s c fuel nv acc2

/-- Setting `checked := True` on the vertices with the given identities. -/
def markChecked (l : List Vertex) (vids : List Nat) : List Vertex :=
  l.map (fun v => if v.vid ∈ vids then { v with checked := true } else v)

/-- One `next` (forward) or `prev` (backward) step in a ring of `n`
vertices, on ring positions. -/
def stepIdx (n : Nat) (forward : Bool) (i : Nat) : Nat :=
  if forward then (i + 1) % n else (i + n - 1) % n

/-- The ring the phase-3 cursor currently lives in. -/
def curList (s c : List Vertex) (inSubj : Bool) : List Vertex :=
  if inSubj then s else c

/-- Embedding of the innermost phase-3 loop of `Polygon.clip`: repeatedly
advance the cursor (`current = current.next` or `current.prev`), append a
coordinate-only copy of the visited vertex to the polygon being built, and
stop as soon as the visited vertex is an intersection vertex.  Returns the
final cursor position, the extended polygon and the next fresh identity. -/
def walkCopy (p : List Vertex) (forward : Bool) :
    Nat → Nat → List Vertex → Nat → Nat × List Vertex × Nat
  | 0, i, acc, k => (i, acc, k)
  | fuel + 1, i, acc, k =>
      let i2 := stepIdx p.length forward i
      let v := p.getD i2 default
      let acc2 := acc ++ [copyV v k]
      if v.intersect then (i2, acc2, k + 1)
      else walkCopy p forward fuel i2 acc2 (k + 1)

/-- Embedding of the middle phase-3 loop of `Polygon.clip` (`while True:`),
building one result polygon.  Each round: mark the current vertex (and,
through the cascade, its neighbour) checked, walk forward or backward
according to the current vertex's `entry` flag while copying vertices, jump
to the reached intersection vertex's neighbour, and stop when that
neighbour is already checked.  Returns the updated rings, the polygon
built, and the next fresh identity. -/
def buildLoop :
    Nat → List Vertex → List Vertex → Bool → Nat → List Vertex → Nat →
    List Vertex × List Vertex × List Vertex × Nat
  | 0, s, c, _, _, acc, k => (s, c, acc, k)
  | fuel + 1, s, c, inSubj, i, acc, k =>
      let v := (curList s c inSubj).getD i default
      let vids := setCheckedChain s c (s.length + c.length + 1) v.vid []
      let s2 := markChecked s vids
      let c2 := markChecked c vids
      let p2 := curList s2 c2 inSubj
      let res := walkCopy p2 (p2.getD i default).entry (p2.length + 1) i acc k
      let reached := p2.getD res.1 default
      match reached.neighbour with
      | none => (s2, c2, res.2.1, res.2.2)
      | some nv =>
          match s2.findIdx? (fun w => w.vid == nv) with
          | some j =>
              if (s2.getD j default).checked then (s2, c2, res.2.1, res.2.2)
              else buildLoop fuel s2 c2 true j res.2.1 res.2.2
          | none =>
              match c2.findIdx? (fun w => w.vid == nv) with
              | some j =>
                  if (c2.getD j default).checked then (s2, c2, res.2.1, res.2.2)
                  else buildLoop fuel s2 c2 false j res.2.1 res.2.2
              | none => (s2, c2, res.2.1, res.2.2)

/-- Embedding of the outer phase-3 loop of `Polygon.clip`
(`while self.unprocessed():`): while the subject ring has an unchecked
intersection vertex, seed a new result polygon with a coordinate-only copy
of the first such vertex, run the middle loop, and append the polygon
built to the result list. -/
def phase3Outer :
    Nat → List Vertex → List Vertex → Nat → List (List Vertex) →
    List (List Vertex)
  | 0, _, _, _, acc => acc
  | fuel + 1, s, c, k, acc =>
      if s.any (fun v => v.intersect && !v.checked) then
        let i := s.findIdx (fun v => v.intersect && !v.checked)
        let seed := s.getD i default
        let r := buildLoop (s.length + c.length + 1) s c true i [copyV seed k] (k + 1)
        phase3Outer fuel r.1 r.2.1 r.2.2.2 (acc ++ [r.2.2.1])
      else acc

/-- Phase 3 of `Polygon.clip`, including the final
`if not list: list.append(self)` fallback: when the loop produced nothing,
the (mutated, here: unchanged) subject polygon itself is returned. -/
def phase3 (s c : List Vertex) (k : Nat) : List (List Vertex) :=
  let l := phase3Outer (s.length + 1) s c k []
  if l.isEmpty then [s] else l

/-- Largest identity in use in a list of vertices (used to model
allocation of fresh Python objects). -/
def maxVid (l : List Vertex) : Nat :=
  l.foldr (fun v m => max v.vid m) 0

namespace Polygon

/-- Embedding of `Polygon.clip(clip, s_entry, c_entry)`: phase 1 splices
the intersection vertices into both rings; phase 2 computes each polygon's
initial toggle as the operation flag XOR the inside test of its `first`
vertex against the other (current) polygon and labels the intersection
vertices alternately; phase 3 assembles the result polygons. -/
def clip (self other : List Vertex) (s_entry c_entry : Bool) :
    List (List Vertex) :=
  let st := phase1 self other (maxVid (self ++ other) + 1)
  let ts := xor s_entry (isInside (st.subj.headD default) st.clip)
  let s2 := labelEntries ts st.subj
  let tc := xor c_entry (isInside (st.clip.headD default) s2)
  let c2 := labelEntries tc st.clip
  phase3 s2 c2 st.ctr

/-- Embedding of `Polygon.union`. -/
def union (self other : List Vertex) : List (List Vertex) :=
  clip self other false false

/-- Embedding of `Polygon.intersection`. -/
def intersection (self other : List Vertex) : List (List Vertex) :=
  clip self other true true

/-- Embedding of `Polygon.difference`. -/
def difference (self other : List Vertex) : List (List Vertex) :=
  clip self other false true

end Polygon

/-- Embedding of the module-level entry point
`clip_polygon(subject, clipper, operation)`: build the two polygons from
the point sequences (the two rings getting disjoint identity ranges, since
they are distinct Python objects) and dispatch on the operation name; the
Python `getattr` dispatch raises for a name that is none of the three
method names, modelled by `none`. -/
def clip_polygon (subject clipper : List Point) (operation : String) :
    Option (List (List Vertex)) :=
  let Subject := buildPoly 0 subject
  let Clipper := buildPoly subject.length clipper
  if operation = "reversed-diff" then some (Polygon.difference Clipper Subject)
  else if operation = "union" then some (Polygon.union Subject Clipper)
  else if operation = "intersection" then some (Polygon.intersection Subject Clipper)
  else if operation = "difference" then some (Polygon.difference Subject Clipper)
  else none

/-- C4: the operation selectors invoke the clipping orchestrator with
(sEntry, cEntry) = (false,false) for union, (true,true) for intersection,
(false,true) for difference A\B, and `reversed-diff` invokes difference
with the two operand polygons swapped. -/
theorem clip_polygon_selectors (subject clipper : List Point) :
    clip_polygon subject clipper "union" =
      some (Polygon.clip (buildPoly 0 subject) (buildPoly subject.length clipper)
        false false) ∧
    clip_polygon subject clipper "intersection" =
      some (Polygon.clip (buildPoly 0 subject) (buildPoly subject.length clipper)
        true true) ∧
    clip_polygon subject clipper "difference" =
      some (Polygon.clip (buildPoly 0 subject) (buildPoly subject.length clipper)
        false true) ∧
    clip_polygon subject clipper "reversed-diff" =
      some (Polygon.difference (buildPoly subject.length clipper)
        (buildPoly 0 subject)) := by
  refine ⟨rfl, rfl, rfl, rfl⟩

/-- Alternating boolean sequence `[t, !t, t, ...]` of the given length. -/
def altBools : Bool → Nat → List Bool
  | _, 0 => []
  | t, n + 1 => t :: altBools (!t) n

/-- The phase-2 labelling loop assigns the toggle to each intersection
vertex in traversal order and flips it after each assignment: the entry
flags of the intersection vertices, read in order, form the alternating
sequence starting at the initial toggle. -/
theorem labelEntries_entries (t : Bool) (vs : List Vertex) :
    ((labelEntries t vs).filter (fun v => v.intersect)).map (fun v => v.entry)
      = altBools t (vs.countP (fun v => v.intersect)) := by
  induction vs generalizing t with
  | nil => simp [labelEntries, altBools]
  | cons v vs ih =>
      by_cases h : v.intersect
      · simp [labelEntries, h, List.countP_cons, ih, altBools]
      · simp [labelEntries, h, List.countP_cons, ih]

/-- C2: in phase 2, for each of the two polygons independently, the
orchestrator computes an initial toggle as the operation's entry flag XOR
the inside test of that polygon's first vertex against the other polygon,
then traverses the polygon in order assigning `entry := toggle` to each
intersection vertex and flipping the toggle, so consecutive intersection
vertices along one polygon receive alternating entry values. -/
theorem clip_phase2_toggle (subj clip : List Vertex) (s_entry c_entry : Bool) :
    let st := phase1 subj clip (maxVid (subj ++ clip) + 1)
    let ts := xor s_entry (isInside (st.subj.headD default) st.clip)
    let s2 := labelEntries ts st.subj
    let tc := xor c_entry (isInside (st.clip.headD default) s2)
    let c2 := labelEntries tc st.clip
    Polygon.clip subj clip s_entry c_entry = phase3 s2 c2 st.ctr ∧
    (s2.filter (fun v => v.intersect)).map (fun v => v.entry)
      = altBools ts (st.subj.countP (fun v => v.intersect)) ∧
    (c2.filter (fun v => v.intersect)).map (fun v => v.entry)
      = altBools tc (st.clip.countP (fun v => v.intersect)) := by
  exact ⟨rfl, labelEntries_entries _ _, labelEntries_entries _ _⟩

/-- The vertex that `buildPoly` places at ring position `i`. -/
def builtV (base : Nat) (pts : List Point) (i : Nat) : Vertex :=
  ⟨(pts.getD i default).x, (pts.getD i default).y, 0, false, true, false, none, base + i⟩

theorem buildPoly_eq_map (base : Nat) (pts : List Point) :
    buildPoly base pts = (List.range pts.length).map (builtV base pts) := by
  simp [buildPoly, builtV]

theorem buildPoly_length (base : Nat) (pts : List Point) :
    (buildPoly base pts).length = pts.length := by
  simp [buildPoly]

theorem buildPoly_getD (base : Nat) (pts : List Point) (i : Nat)
    (h : i < pts.length) :
    (buildPoly base pts).getD i default = builtV base pts i := by
  simp [buildPoly_eq_map, List.getD_eq_getElem?_getD, List.getElem?_map,
    List.getElem?_range h]

theorem buildPoly_mem (base : Nat) (pts : List Point) (v : Vertex)
    (h : v ∈ buildPoly base pts) :
    ∃ i, i < pts.length ∧ v = builtV base pts i := by
  rw [buildPoly_eq_map] at h
  obtain ⟨i, hi, rfl⟩ := List.mem_map.1 h
  exact ⟨i, List.mem_range.1 hi, rfl⟩

theorem buildPoly_intersect_false (base : Nat) (pts : List Point) (v : Vertex)
    (h : v ∈ buildPoly base pts) : v.intersect = false := by
  obtain ⟨i, -, rfl⟩ := buildPoly_mem base pts v h
  rfl

/-- First index of a mapped range satisfying a predicate, when the
predicate first holds at `i`. -/
theorem findIdx_map_range {α : Type} (n : Nat) (f : Nat → α) (pred : α → Bool)
    (i : Nat) (hi : i < n) (hpi : pred (f i) = true)
    (hprev : ∀ j, j < i → pred (f j) = false) :
    ((List.range n).map f).findIdx pred = i := by
  induction n generalizing f i with
  | zero => omega
  | succ n ih =>
      rw [List.range_succ_eq_map, List.map_cons, List.findIdx_cons, List.map_map]
      cases i with
      | zero => simp [hpi]
      | succ i =>
          have h0 : pred (f 0) = false := hprev 0 (Nat.succ_pos i)
          rw [h0]
          have := ih (fun k => f (k + 1)) i (by omega) hpi
            (fun j hj => hprev (j + 1) (by omega))
          simpa [Function.comp] using this

theorem buildPoly_findIdx (base : Nat) (pts : List Point) (i : Nat)
    (h : i < pts.length) :
    (buildPoly base pts).findIdx (fun w => w.vid == base + i) = i := by
  rw [buildPoly_eq_map]
  refine findIdx_map_range _ _ _ i h (by simp [builtV]) (fun j hj => ?_)
  simp only [builtV, beq_eq_false_iff_ne, ne_eq]
  omega

theorem skipInter_of_not_intersect (p : List Vertex) (fuel i : Nat)
    (h : (p.getD i default).intersect = false) :
    skipInter p (fuel + 1) i = i := by
  simp only [skipInter]
  rw [h]
  simp

/-- On a ring containing no intersection vertices, `Polygon.next(v.next)`
is simply the cyclic successor. -/
theorem nextOrigIdx_all_orig (p : List Vertex)
    (h : ∀ v ∈ p, v.intersect = false) (i : Nat) :
    nextOrigIdx p i = (i + 1) % p.length := by
  unfold nextOrigIdx
  cases hl : p.length with
  | zero => simp [skipInter]
  | succ n =>
      have hlt : (i + 1) % p.length < p.length := Nat.mod_lt _ (by omega)
      have hmem : p.getD ((i + 1) % p.length) default ∈ p := by
        rw [List.getD_eq_getElem?_getD, List.getElem?_eq_getElem hlt,
          Option.getD_some]
        exact List.getElem_mem hlt
      rw [hl] at hmem
      exact skipInter_of_not_intersect p n _ (h _ hmem)

/-- Folding a function that fixes the seed over a list returns the seed. -/
theorem foldl_fixed_of_mem {α β : Type} {f : β → α → β} {b : β} {l : List α}
    (h : ∀ a ∈ l, f b a = b) : l.foldl f b = b := by
  induction l with
  | nil => rfl
  | cons a l ih => rw [List.foldl_cons, h a (by simp)]; exact ih (fun x hx => h x (by simp [hx]))

/-- A pair step of phase 1 whose intersection test fails leaves the state
unchanged. -/
theorem phase1Pair_none (sv cv : Vertex) (st : ClipState)
    (h : intersect sv.pt
        (st.subj.getD (nextOrigIdx st.subj
          (st.subj.findIdx (fun w => w.vid == sv.vid))) default).pt
        cv.pt
        (st.clip.getD (nextOrigIdx st.clip
          (st.clip.findIdx (fun w => w.vid == cv.vid))) default).pt = none) :
    phase1Pair sv cv st = st := by
  simp only [phase1Pair]
  rw [h]

/-- Phase 1 changes nothing when the intersection test fails for every
pair of vertices of the two initial rings. -/
theorem phase1_none (s c : List Vertex) (ctr0 : Nat)
    (H : ∀ sv ∈ s, ∀ cv ∈ c,
      intersect sv.pt
        (s.getD (nextOrigIdx s (s.findIdx (fun w => w.vid == sv.vid))) default).pt
        cv.pt
        (c.getD (nextOrigIdx c (c.findIdx (fun w => w.vid == cv.vid))) default).pt
        = none) :
    phase1 s c ctr0 = ⟨s, c, ctr0⟩ := by
  unfold phase1
  refine foldl_fixed_of_mem (fun sv hsv => ?_)
  by_cases hi : sv.intersect
  · simp [hi]
  · simp only [hi, if_false]
    refine foldl_fixed_of_mem (fun cv hcv => ?_)
    by_cases hc : cv.intersect
    · simp [hc]
    · simp only [hc, if_false]
      exact phase1Pair_none sv cv _ (H sv hsv cv hcv)

/-- Phase 2 changes nothing on a ring without intersection vertices. -/
theorem labelEntries_all_orig (t : Bool) (p : List Vertex)
    (h : ∀ v ∈ p, v.intersect = false) : labelEntries t p = p := by
  induction p generalizing t with
  | nil => rfl
  | cons v vs ih =>
      have hv : v.intersect = false := h v (by simp)
      simp [labelEntries, hv, ih t (fun w hw => h w (by simp [hw]))]

/-- Phase 3 returns the subject polygon itself when the subject ring has
no unprocessed intersection vertex. -/
theorem phase3_no_unprocessed (s c : List Vertex) (k : Nat)
    (h : s.any (fun v => v.intersect && !v.checked) = false) :
    phase3 s c k = [s] := by
  have houter : phase3Outer (s.length + 1) s c k [] = [] := by
    simp [phase3Outer, h]
  simp [phase3, houter]

theorem builtV_pt (base : Nat) (pts : List Point) (i : Nat) :
    (builtV base pts i).pt = pts.getD i default := rfl

/-- Bridge from the edge-wise "no crossings" condition on the raw point
lists to the per-pair condition phase 1 actually evaluates on the built
rings. -/
theorem buildPoly_pairs_none (spts cpts : List Point)
    (H : ∀ i, i < spts.length → ∀ j, j < cpts.length →
      intersect (spts.getD i default) (spts.getD ((i + 1) % spts.length) default)
        (cpts.getD j default) (cpts.getD ((j + 1) % cpts.length) default) = none) :
    ∀ sv ∈ buildPoly 0 spts, ∀ cv ∈ buildPoly spts.length cpts,
      intersect sv.pt
        ((buildPoly 0 spts).getD (nextOrigIdx (buildPoly 0 spts)
          ((buildPoly 0 spts).findIdx (fun w => w.vid == sv.vid))) default).pt
        cv.pt
        ((buildPoly spts.length cpts).getD (nextOrigIdx (buildPoly spts.length cpts)
          ((buildPoly spts.length cpts).findIdx (fun w => w.vid == cv.vid))) default).pt
        = none := by
  intro sv hsv cv hcv
  obtain ⟨i, hi, rfl⟩ := buildPoly_mem _ _ _ hsv
  obtain ⟨j, hj, rfl⟩ := buildPoly_mem _ _ _ hcv
  have hfi : (buildPoly 0 spts).findIdx (fun w => w.vid == (builtV 0 spts i).vid) = i :=
    buildPoly_findIdx 0 spts i hi
  have hfj : (buildPoly spts.length cpts).findIdx
      (fun w => w.vid == (builtV spts.length cpts j).vid) = j :=
    buildPoly_findIdx spts.length cpts j hj
  rw [hfi, hfj,
    nextOrigIdx_all_orig _ (buildPoly_intersect_false 0 spts) i,
    nextOrigIdx_all_orig _ (buildPoly_intersect_false spts.length cpts) j,
    buildPoly_length, buildPoly_length,
    buildPoly_getD 0 spts _ (Nat.mod_lt _ (by omega)),
    buildPoly_getD spts.length cpts _ (Nat.mod_lt _ (by omega)),
    builtV_pt, builtV_pt, builtV_pt, builtV_pt]
  exact H i hi j hj

/-- Orchestrator behaviour when the intersection test fails on every pair
of edges of the two built polygons: the subject ring is returned as the
single result, untouched. -/
theorem clip_of_no_pair_crossings (spts cpts : List Point) (s_entry c_entry : Bool)
    (H : ∀ i, i < spts.length → ∀ j, j < cpts.length →
      intersect (spts.getD i default) (spts.getD ((i + 1) % spts.length) default)
        (cpts.getD j default) (cpts.getD ((j + 1) % cpts.length) default) = none) :
    Polygon.clip (buildPoly 0 spts) (buildPoly spts.length cpts) s_entry c_entry
      = [buildPoly 0 spts] := by
  have hSno := buildPoly_intersect_false 0 spts
  have hCno := buildPoly_intersect_false spts.length cpts
  have hany : (buildPoly 0 spts).any (fun v => v.intersect && !v.checked) = false := by
    rw [List.any_eq_false]
    intro v hv
    simp [hSno v hv]
  simp only [Polygon.clip]
  rw [phase1_none _ _ _ (buildPoly_pairs_none spts cpts H)]
  simp only []
  rw [labelEntries_all_orig _ _ hSno, labelEntries_all_orig _ _ hCno,
    phase3_no_unprocessed _ _ _ hany]

/-- C5: for every pair of input polygons for which phase 1 discovers zero
intersection points (the intersection test fails on every pair of
original edges), the orchestrator returns a list containing exactly one
polygon — the original subject polygon, unmodified (no vertices added, no
flags changed) — for every operation selector, i.e. every
(s_entry, c_entry) flag pair. -/
theorem clip_zero_intersections (spts cpts : List Point) (s_entry c_entry : Bool)
    (H : ∀ i, i < spts.length → ∀ j, j < cpts.length →
      intersect (spts.getD i default) (spts.getD ((i + 1) % spts.length) default)
        (cpts.getD j default) (cpts.getD ((j + 1) % cpts.length) default) = none) :
    Polygon.clip (buildPoly 0 spts) (buildPoly spts.length cpts) s_entry c_entry
      = [buildPoly 0 spts] :=
  clip_of_no_pair_crossings spts cpts s_entry c_entry H

/-- Witness for `clip_zero_intersections`: two far-apart triangles, whose
edge pairs all fail the intersection test. -/
theorem clip_zero_intersections_witness :
    (∀ i, i < ([⟨0,0⟩, ⟨1,0⟩, ⟨0,1⟩] : List Point).length →
        ∀ j, j < ([⟨20,20⟩, ⟨21,20⟩, ⟨20,21⟩] : List Point).length →
      intersect (([⟨0,0⟩, ⟨1,0⟩, ⟨0,1⟩] : List Point).getD i default)
        (([⟨0,0⟩, ⟨1,0⟩, ⟨0,1⟩] : List Point).getD ((i + 1) % 3) default)
        (([⟨20,20⟩, ⟨21,20⟩, ⟨20,21⟩] : List Point).getD j default)
        (([⟨20,20⟩, ⟨21,20⟩, ⟨20,21⟩] : List Point).getD ((j + 1) % 3) default)
        = none) ∧
    Polygon.clip (buildPoly 0 [⟨0,0⟩, ⟨1,0⟩, ⟨0,1⟩])
        (buildPoly 3 [⟨20,20⟩, ⟨21,20⟩, ⟨20,21⟩]) false true
      = [buildPoly 0 [⟨0,0⟩, ⟨1,0⟩, ⟨0,1⟩]] := by
  refine ⟨by with_unfolding_all decide, ?_⟩
  exact clip_zero_intersections [⟨0,0⟩, ⟨1,0⟩, ⟨0,1⟩] [⟨20,20⟩, ⟨21,20⟩, ⟨20,21⟩]
    false true (by with_unfolding_all decide)

/-- Denominator of the intersection test (named form for algebraic
reasoning). -/
def denom (s1 s2 c1 c2 : Point) : ℚ :=
  (c2.y - c1.y) * (s2.x - s1.x) - (c2.x - c1.x) * (s2.y - s1.y)

/-- Subject-edge parameter of the intersection test. -/
def usub (s1 s2 c1 c2 : Point) : ℚ :=
  ((c2.x - c1.x) * (s1.y - c1.y) - (c2.y - c1.y) * (s1.x - c1.x)) /
    denom s1 s2 c1 c2

/-- Clip-edge parameter of the intersection test. -/
def uclp (s1 s2 c1 c2 : Point) : ℚ :=
  ((s2.x - s1.x) * (s1.y - c1.y) - (s2.y - s1.y) * (s1.x - c1.x)) /
    denom s1 s2 c1 c2

/-- Guard form of the `intersect` characterisation, with the named
parameter functions. -/
theorem intersect_eq_guard (s1 s2 c1 c2 : Point) :
    intersect s1 s2 c1 c2 =
      if denom s1 s2 c1 c2 ≠ 0 ∧
          (0 < usub s1 s2 c1 c2 ∧ usub s1 s2 c1 c2 < 1) ∧
          (0 < uclp s1 s2 c1 c2 ∧ uclp s1 s2 c1 c2 < 1) then
        some (⟨s1.x + usub s1 s2 c1 c2 * (s2.x - s1.x),
               s1.y + usub s1 s2 c1 c2 * (s2.y - s1.y)⟩,
              usub s1 s2 c1 c2, uclp s1 s2 c1 c2)
      else none := by
  rw [intersect_eq_ite]
  rfl

/-- The two closed segments from `a` to `b` and from `c` to `d` share a
point, in componentwise parametric form. -/
def SegMeet (a b c d : Point) : Prop :=
  ∃ t u : ℚ, 0 ≤ t ∧ t ≤ 1 ∧ 0 ≤ u ∧ u ≤ 1 ∧
    a.x + t * (b.x - a.x) = c.x + u * (d.x - c.x) ∧
    a.y + t * (b.y - a.y) = c.y + u * (d.y - c.y)

/-- A successful intersection test exhibits a shared point of the two
closed segments (the parameters are even strictly interior). -/
theorem segMeet_of_intersect_isSome (a b c d : Point)
    (h : (intersect a b c d).isSome = true) : SegMeet a b c d := by
  rw [intersect_eq_guard] at h
  by_cases hg : denom a b c d ≠ 0 ∧
      (0 < usub a b c d ∧ usub a b c d < 1) ∧
      (0 < uclp a b c d ∧ uclp a b c d < 1)
  · obtain ⟨hden, ⟨h1, h2⟩, h3, h4⟩ := hg
    refine ⟨usub a b c d, uclp a b c d, le_of_lt h1, le_of_lt h2,
      le_of_lt h3, le_of_lt h4, ?_, ?_⟩
    · unfold usub uclp denom at *
      field_simp
      ring
    · unfold usub uclp denom at *
      field_simp
      ring
  · rw [if_neg hg] at h
    simp at h

/-- If the two closed segments share no point, the intersection test
reports no intersection. -/
theorem intersect_none_of_not_segMeet (a b c d : Point)
    (h : ¬ SegMeet a b c d) : intersect a b c d = none := by
  cases hi : intersect a b c d with
  | none => rfl
  | some r =>
      exact absurd (segMeet_of_intersect_isSome a b c d (by rw [hi]; rfl)) h

/-- The intersection test on an edge against itself: zero denominator. -/
theorem intersect_self_edge (a b : Point) : intersect a b a b = none := by
  rw [intersect_eq_guard, if_neg]
  rintro ⟨hden, -⟩
  exact hden (by unfold denom; ring)

/-- The intersection test on an edge against its own reversal: zero
denominator. -/
theorem intersect_reversed_edge (a b : Point) : intersect a b b a = none := by
  rw [intersect_eq_guard, if_neg]
  rintro ⟨hden, -⟩
  exact hden (by unfold denom; ring)

/-- When the subject edge's second endpoint is the clip edge's first
endpoint and the lines are not parallel, the subject parameter is exactly
1, hence the degenerate-endpoint rule reports no intersection. -/
theorem intersect_shared_endpoint_sc (a b d : Point) :
    intersect a b b d = none := by
  rw [intersect_eq_guard, if_neg]
  rintro ⟨hden, ⟨-, hlt⟩, -⟩
  have hus : usub a b b d = 1 := by
    unfold usub
    rw [div_eq_one_iff_eq hden]
    unfold denom
    ring
  rw [hus] at hlt
  exact lt_irrefl 1 hlt

/-- When the clip edge's second endpoint is the subject edge's first
endpoint and the lines are not parallel, the clip parameter is exactly 1,
hence the degenerate-endpoint rule reports no intersection. -/
theorem intersect_shared_endpoint_cs (a b c : Point) :
    intersect a b c a = none := by
  rw [intersect_eq_guard, if_neg]
  rintro ⟨hden, -, -, hlt⟩
  have huc : uclp a b c a = 1 := by
    unfold uclp
    rw [div_eq_one_iff_eq hden]
    unfold denom
    ring
  rw [huc] at hlt
  exact lt_irrefl 1 hlt

/-- Ring positions `i` and `j` index non-adjacent edges of a polygon with
`n` edges: distinct and not cyclically consecutive. -/
def NonAdjacent (n i j : Nat) : Prop :=
  i ≠ j ∧ (i + 1) % n ≠ j ∧ (j + 1) % n ≠ i

/-- A simple polygon, given by its point sequence: no two non-adjacent
edges share any point.  (Adjacent edges share exactly their common
endpoint; edges of a simple polygon meet nowhere else.) -/
def SimplePoly (pts : List Point) : Prop :=
  ∀ i, i < pts.length → ∀ j, j < pts.length → NonAdjacent pts.length i j →
    ¬ SegMeet (pts.getD i default) (pts.getD ((i + 1) % pts.length) default)
      (pts.getD j default) (pts.getD ((j + 1) % pts.length) default)

/-- For a simple polygon clipped against a copy of itself, the
intersection test fails on every pair of edges: identical edges give a
zero denominator, adjacent edges hit the degenerate endpoint rule, and
non-adjacent edges share no point at all. -/
theorem simple_self_pairs_none (pts : List Point) (hs : SimplePoly pts) :
    ∀ i, i < pts.length → ∀ j, j < pts.length →
      intersect (pts.getD i default) (pts.getD ((i + 1) % pts.length) default)
        (pts.getD j default) (pts.getD ((j + 1) % pts.length) default) = none := by
  intro i hi j hj
  by_cases hij : i = j
  · subst hij
    exact intersect_self_edge _ _
  · by_cases hadj1 : (i + 1) % pts.length = j
    · rw [← hadj1]
      exact intersect_shared_endpoint_sc _ _ _
    · by_cases hadj2 : (j + 1) % pts.length = i
      · rw [← hadj2]
        exact intersect_shared_endpoint_cs _ _ _
      · exact intersect_none_of_not_segMeet _ _ _ _
          (hs i hi j hj ⟨hij, hadj1, hadj2⟩)

/-- C7: self-clip idempotence — for every simple polygon A, intersecting A
with (a copy of) itself returns exactly the single polygon A, unchanged
(in exact rational arithmetic the result is literally identical, which is
in particular identity up to floating-point tolerance and vertex order). -/
theorem intersection_self_identity (pts : List Point) (hs : SimplePoly pts) :
    clip_polygon pts pts "intersection" = some [buildPoly 0 pts] := by
  have h := clip_of_no_pair_crossings pts pts true true
    (simple_self_pairs_none pts hs)
  simp only [clip_polygon, Polygon.intersection]
  rw [if_neg (by decide : ¬("intersection" = "reversed-diff")),
    if_neg (by decide : ¬("intersection" = "union"))]
  simp only [ite_true]
  rw [h]

/-- Witness for `intersection_self_identity`: a concrete triangle.  Every
pair of distinct edges of a triangle is adjacent, so the simplicity
hypothesis reduces to arithmetic on indices. -/
theorem intersection_self_identity_witness :
    SimplePoly [⟨0,0⟩, ⟨4,0⟩, ⟨0,4⟩] ∧
    clip_polygon [⟨0,0⟩, ⟨4,0⟩, ⟨0,4⟩] [⟨0,0⟩, ⟨4,0⟩, ⟨0,4⟩] "intersection"
      = some [buildPoly 0 [⟨0,0⟩, ⟨4,0⟩, ⟨0,4⟩]] := by
  have hs : SimplePoly [⟨0,0⟩, ⟨4,0⟩, ⟨0,4⟩] := by
    intro i hi j hj hadj
    exfalso
    simp only [List.length_cons, List.length_nil] at hi hj
    obtain ⟨h1, h2, h3⟩ := hadj
    interval_cases i <;> interval_cases j <;> simp_all
  exact ⟨hs, intersection_self_identity _ hs⟩

set_option maxRecDepth 100000 in
/-- C6 counterexample: for the two concrete convex, non-overlapping
(boundary-disjoint) triangles below, the intersection operation does NOT
return an empty list — phase 1 finds no crossings and the orchestrator
falls back to returning the single original subject polygon. -/
theorem intersection_disjoint_counterexample :
    clip_polygon [⟨0,0⟩, ⟨2,0⟩, ⟨0,2⟩] [⟨10,0⟩, ⟨12,0⟩, ⟨10,2⟩] "intersection"
        ≠ some ([] : List (List Vertex)) ∧
    clip_polygon [⟨0,0⟩, ⟨2,0⟩, ⟨0,2⟩] [⟨10,0⟩, ⟨12,0⟩, ⟨10,2⟩] "intersection"
        = some [buildPoly 0 [⟨0,0⟩, ⟨2,0⟩, ⟨0,2⟩]] := by
  with_unfolding_all decide

/-- C6 as amended: for every two polygons whose boundaries share no point
(as is the case for any two convex, non-overlapping polygons), the
intersection operation returns the one-element list containing the
original subject polygon unmodified — the documented zero-intersection
fallback — rather than an empty list. -/
theorem intersection_disjoint_returns_subject (spts cpts : List Point)
    (H : ∀ i, i < spts.length → ∀ j, j < cpts.length →
      ¬ SegMeet (spts.getD i default) (spts.getD ((i + 1) % spts.length) default)
        (cpts.getD j default) (cpts.getD ((j + 1) % cpts.length) default)) :
    clip_polygon spts cpts "intersection" = some [buildPoly 0 spts] := by
  have h := clip_of_no_pair_crossings spts cpts true true
    (fun i hi j hj => intersect_none_of_not_segMeet _ _ _ _ (H i hi j hj))
  simp only [clip_polygon, Polygon.intersection]
  rw [if_neg (by decide : ¬("intersection" = "reversed-diff")),
    if_neg (by decide : ¬("intersection" = "union"))]
  simp only [ite_true]
  rw [h]

/-- Witness for `intersection_disjoint_returns_subject`: two concrete
disjoint convex triangles, with the boundary-disjointness hypothesis
discharged edge pair by edge pair. -/
theorem intersection_disjoint_returns_subject_witness :
    (∀ i, i < ([⟨0,0⟩, ⟨2,0⟩, ⟨0,2⟩] : List Point).length →
     ∀ j, j < ([⟨10,0⟩, ⟨12,0⟩, ⟨10,2⟩] : List Point).length →
      ¬ SegMeet (([⟨0,0⟩, ⟨2,0⟩, ⟨0,2⟩] : List Point).getD i default)
        (([⟨0,0⟩, ⟨2,0⟩, ⟨0,2⟩] : List Point).getD ((i + 1) % 3) default)
        (([⟨10,0⟩, ⟨12,0⟩, ⟨10,2⟩] : List Point).getD j default)
        (([⟨10,0⟩, ⟨12,0⟩, ⟨10,2⟩] : List Point).getD ((j + 1) % 3) default)) ∧
    clip_polygon [⟨0,0⟩, ⟨2,0⟩, ⟨0,2⟩] [⟨10,0⟩, ⟨12,0⟩, ⟨10,2⟩] "intersection"
      = some [buildPoly 0 [⟨0,0⟩, ⟨2,0⟩, ⟨0,2⟩]] := by
  have H : ∀ i, i < ([⟨0,0⟩, ⟨2,0⟩, ⟨0,2⟩] : List Point).length →
      ∀ j, j < ([⟨10,0⟩, ⟨12,0⟩, ⟨10,2⟩] : List Point).length →
      ¬ SegMeet (([⟨0,0⟩, ⟨2,0⟩, ⟨0,2⟩] : List Point).getD i default)
        (([⟨0,0⟩, ⟨2,0⟩, ⟨0,2⟩] : List Point).getD ((i + 1) % 3) default)
        (([⟨10,0⟩, ⟨12,0⟩, ⟨10,2⟩] : List Point).getD j default)
        (([⟨10,0⟩, ⟨12,0⟩, ⟨10,2⟩] : List Point).getD ((j + 1) % 3) default) := by
    intro i hi j hj
    simp only [List.length_cons, List.length_nil] at hi hj
    rintro ⟨t, u, ht0, ht1, hu0, hu1, hx, hy⟩
    interval_cases i <;> interval_cases j <;>
      norm_num [List.getD] at hx <;> linarith
  exact ⟨H, intersection_disjoint_returns_subject
    [⟨0,0⟩, ⟨2,0⟩, ⟨0,2⟩] [⟨10,0⟩, ⟨12,0⟩, ⟨10,2⟩] H⟩

set_option maxRecDepth 100000 in
/-- C8 counterexample: the clipping entry point performs no input
validation.  A malformed subject with only 2 points is not rejected with
an "invalid polygon" error (modelled as `none`); it flows straight
through the algorithm, which silently returns it unmodified. -/
theorem clip_polygon_no_validation_counterexample :
    clip_polygon [⟨0,0⟩, ⟨1,0⟩] [⟨10,0⟩, ⟨12,0⟩, ⟨10,2⟩] "intersection"
        ≠ none ∧
    clip_polygon [⟨0,0⟩, ⟨1,0⟩] [⟨10,0⟩, ⟨12,0⟩, ⟨10,2⟩] "intersection"
        = some [buildPoly 0 [⟨0,0⟩, ⟨1,0⟩]] := by
  with_unfolding_all decide

/-- C8 as amended: `clip_polygon` validates nothing.  Any 2-point subject
sequence (fewer than the 3 points a real polygon needs) is accepted and
processed by the ordinary three-phase algorithm; when its two degenerate
edges cross none of the clip polygon's edges it is returned unmodified,
with no error of any kind. -/
theorem clip_polygon_accepts_degenerate_subject (p q : Point) (cpts : List Point)
    (H : ∀ i, i < ([p, q] : List Point).length → ∀ j, j < cpts.length →
      intersect (([p, q] : List Point).getD i default)
        (([p, q] : List Point).getD ((i + 1) % ([p, q] : List Point).length) default)
        (cpts.getD j default) (cpts.getD ((j + 1) % cpts.length) default) = none) :
    clip_polygon [p, q] cpts "intersection" = some [buildPoly 0 [p, q]] := by
  have h := clip_of_no_pair_crossings [p, q] cpts true true H
  simp only [clip_polygon, Polygon.intersection]
  rw [if_neg (by decide : ¬("intersection" = "reversed-diff")),
    if_neg (by decide : ¬("intersection" = "union"))]
  simp only [ite_true]
  rw [h]

set_option maxRecDepth 100000 in
/-- Witness for `clip_polygon_accepts_degenerate_subject`: a concrete
2-point subject against a far-away triangle. -/
theorem clip_polygon_accepts_degenerate_subject_witness :
    (∀ i, i < ([⟨0,0⟩, ⟨1,1⟩] : List Point).length →
     ∀ j, j < ([⟨30,0⟩, ⟨32,0⟩, ⟨30,2⟩] : List Point).length →
      intersect (([⟨0,0⟩, ⟨1,1⟩] : List Point).getD i default)
        (([⟨0,0⟩, ⟨1,1⟩] : List Point).getD
          ((i + 1) % ([⟨0,0⟩, ⟨1,1⟩] : List Point).length) default)
        (([⟨30,0⟩, ⟨32,0⟩, ⟨30,2⟩] : List Point).getD j default)
        (([⟨30,0⟩, ⟨32,0⟩, ⟨30,2⟩] : List Point).getD
          ((j + 1) % ([⟨30,0⟩, ⟨32,0⟩, ⟨30,2⟩] : List Point).length) default)
        = none) ∧
    clip_polygon [⟨0,0⟩, ⟨1,1⟩] [⟨30,0⟩, ⟨32,0⟩, ⟨30,2⟩] "intersection"
      = some [buildPoly 0 [⟨0,0⟩, ⟨1,1⟩]] := by
  refine ⟨by with_unfolding_all decide, ?_⟩
  exact clip_polygon_accepts_degenerate_subject ⟨0,0⟩ ⟨1,1⟩ [⟨30,0⟩, ⟨32,0⟩, ⟨30,2⟩]
    (by with_unfolding_all decide)

set_option maxRecDepth 100000 in
/-- C9 counterexample: in the zero-intersection fallback the orchestrator
returns the input subject ring itself, so a result polygon can share its
vertex nodes with an input polygon's ring — here the result even IS the
subject ring (same node identities). -/
theorem clip_result_shares_nodes_counterexample :
    Polygon.clip (buildPoly 0 [⟨0,0⟩, ⟨3,0⟩, ⟨0,3⟩])
        (buildPoly 3 [⟨20,0⟩, ⟨22,0⟩, ⟨20,2⟩]) false false
      = [buildPoly 0 [⟨0,0⟩, ⟨3,0⟩, ⟨0,3⟩]] ∧
    (∃ poly ∈ Polygon.clip (buildPoly 0 [⟨0,0⟩, ⟨3,0⟩, ⟨0,3⟩])
        (buildPoly 3 [⟨20,0⟩, ⟨22,0⟩, ⟨20,2⟩]) false false,
      ∃ v ∈ poly, ∃ w ∈ buildPoly 0 [⟨0,0⟩, ⟨3,0⟩, ⟨0,3⟩], v.vid = w.vid) := by
  with_unfolding_all decide

/-- A vertex carrying exactly the Python `Vertex` constructor defaults
apart from its coordinates — what phase 3's `Vertex(current)` copies look
like. -/
def IsCopyDefaults (v : Vertex) : Prop :=
  v.alpha = 0 ∧ v.intersect = false ∧ v.entry = true ∧ v.checked = false ∧
    v.neighbour = none

/-- All vertices of a list are coordinate-only copies with identities in
the range [lo, hi). -/
def GoodCopies (l : List Vertex) (lo hi : Nat) : Prop :=
  ∀ v ∈ l, IsCopyDefaults v ∧ lo ≤ v.vid ∧ v.vid < hi

theorem goodCopies_mono (l : List Vertex) (lo hi hi2 : Nat) (h : hi ≤ hi2)
    (hg : GoodCopies l lo hi) : GoodCopies l lo hi2 :=
  fun v hv => ⟨(hg v hv).1, (hg v hv).2.1, lt_of_lt_of_le (hg v hv).2.2 h⟩

theorem isCopyDefaults_copyV (v : Vertex) (k : Nat) :
    IsCopyDefaults (copyV v k) :=
  ⟨rfl, rfl, rfl, rfl, rfl⟩

/-- The inner phase-3 walk only ever appends coordinate-only copies with
fresh, increasing identities. -/
theorem walkCopy_goodCopies (p : List Vertex) (fwd : Bool) :
    ∀ fuel i acc k lo, lo ≤ k → GoodCopies acc lo k →
      k ≤ (walkCopy p fwd fuel i acc k).2.2 ∧
      GoodCopies (walkCopy p fwd fuel i acc k).2.1 lo
        (walkCopy p fwd fuel i acc k).2.2 := by
  intro fuel
  induction fuel with
  | zero => intro i acc k lo hlo hg; exact ⟨le_refl _, hg⟩
  | succ fuel ih =>
      intro i acc k lo hlo hg
      simp only [walkCopy]
      have hg2 : GoodCopies (acc ++ [copyV ((p.getD (stepIdx p.length fwd i) default)) k])
          lo (k + 1) := by
        intro v hv
        rcases List.mem_append.1 hv with hv | hv
        · exact (goodCopies_mono acc lo k (k+1) (Nat.le_succ k) hg) v hv
        · rcases List.mem_singleton.1 hv with rfl
          exact ⟨isCopyDefaults_copyV _ _, hlo, Nat.lt_succ_self k⟩
      by_cases hint : (p.getD (stepIdx p.length fwd i) default).intersect
      · simp only [hint, if_true]
        exact ⟨Nat.le_succ k, hg2⟩
      · simp only [hint, if_false]
        have := ih (stepIdx p.length fwd i) _ (k + 1) lo (le_trans hlo (Nat.le_succ k)) hg2
        exact ⟨le_trans (Nat.le_succ k) this.1, this.2⟩

/-- The middle phase-3 loop builds its result polygon exclusively out of
coordinate-only copies with fresh, increasing identities. -/
theorem buildLoop_goodCopies :
    ∀ fuel s c inSubj i acc k lo, lo ≤ k → GoodCopies acc lo k →
      k ≤ (buildLoop fuel s c inSubj i acc k).2.2.2 ∧
      GoodCopies (buildLoop fuel s c inSubj i acc k).2.2.1 lo
        (buildLoop fuel s c inSubj i acc k).2.2.2 := by
  intro fuel
  induction fuel with
  | zero => intro s c inSubj i acc k lo hlo hg; exact ⟨le_refl _, hg⟩
  | succ fuel ih =>
      intro s c inSubj i acc k lo hlo hg
      simp only [buildLoop]
      set vids := setCheckedChain s c (s.length + c.length + 1)
        ((curList s c inSubj).getD i default).vid [] with hvids
      set s2 := markChecked s vids with hs2
      set c2 := markChecked c vids with hc2
      set p2 := curList s2 c2 inSubj with hp2
      set res := walkCopy p2 (p2.getD i default).entry (p2.length + 1) i acc k
        with hres
      have hw : k ≤ res.2.2 ∧ GoodCopies res.2.1 lo res.2.2 := by
        rw [hres]
        exact walkCopy_goodCopies p2 (p2.getD i default).entry (p2.length + 1)
          i acc k lo hlo hg
      split
      · exact hw
      · rename_i nv hnv
        split
        · rename_i j hj
          split
          · exact hw
          · have hr := ih s2 c2 true j res.2.1 res.2.2 lo (le_trans hlo hw.1) hw.2
            exact ⟨le_trans hw.1 hr.1, hr.2⟩
        · split
          · rename_i j hj
            split
            · exact hw
            · have hr := ih s2 c2 false j res.2.1 res.2.2 lo (le_trans hlo hw.1) hw.2
              exact ⟨le_trans hw.1 hr.1, hr.2⟩
          · exact hw

/-- Once the accumulator is non-empty, the outer phase-3 loop never
returns an empty result list. -/
theorem phase3Outer_ne_nil_of_acc (fuelN : Nat) :
    ∀ s c k acc, acc ≠ ([] : List (List Vertex)) →
      phase3Outer fuelN s c k acc ≠ [] := by
  induction fuelN with
  | zero => intro s c k acc h; simpa [phase3Outer] using h
  | succ fuel ih =>
      intro s c k acc h
      simp only [phase3Outer]
      split
      · exact ih _ _ _ _ (by simp)
      · exact h

/-- When the subject ring still has an unprocessed intersection, the
outer phase-3 loop emits at least one polygon. -/
theorem phase3Outer_start_ne_nil (s c : List Vertex) (k : Nat)
    (h : s.any (fun v => v.intersect && !v.checked) = true) :
    phase3Outer (s.length + 1) s c k [] ≠ [] := by
  simp only [phase3Outer, h, if_true]
  exact phase3Outer_ne_nil_of_acc s.length _ _ _ _ (by simp)

/-- Every polygon the outer phase-3 loop ever emits consists solely of
coordinate-only copies with identities at least `lo`. -/
theorem phase3Outer_goodCopies (fuelN : Nat) :
    ∀ s c k acc lo, lo ≤ k →
      (∀ poly ∈ acc, ∀ v ∈ poly, IsCopyDefaults v ∧ lo ≤ v.vid) →
      ∀ poly ∈ phase3Outer fuelN s c k acc, ∀ v ∈ poly,
        IsCopyDefaults v ∧ lo ≤ v.vid := by
  induction fuelN with
  | zero =>
      intro s c k acc lo hlo hacc
      simpa [phase3Outer] using hacc
  | succ fuel ih =>
      intro s c k acc lo hlo hacc
      simp only [phase3Outer]
      split
      · set i := s.findIdx (fun v => v.intersect && !v.checked) with hidef
        set seed := s.getD i default with hseeddef
        set r := buildLoop (s.length + c.length + 1) s c true i
          [copyV seed k] (k + 1) with hrdef
        have hsg : GoodCopies [copyV seed k] lo (k + 1) := by
          intro v hv
          rcases List.mem_singleton.1 hv with rfl
          exact ⟨isCopyDefaults_copyV _ _, hlo, Nat.lt_succ_self k⟩
        have hb : k + 1 ≤ r.2.2.2 ∧ GoodCopies r.2.2.1 lo r.2.2.2 := by
          rw [hrdef]
          exact buildLoop_goodCopies (s.length + c.length + 1) s c true i
            [copyV seed k] (k + 1) lo (le_trans hlo (Nat.le_succ k)) hsg
        refine ih r.1 r.2.1 r.2.2.2 (acc ++ [r.2.2.1]) lo
          (le_trans (le_trans hlo (Nat.le_succ k)) hb.1) ?_
        intro poly hpoly v hv
        rcases List.mem_append.1 hpoly with h2 | h2
        · exact hacc poly h2 v hv
        · rcases List.mem_singleton.1 h2 with rfl
          exact ⟨(hb.2 v hv).1, (hb.2 v hv).2.1⟩
      · exact hacc

/-- Folding preserves an invariant of the accumulator. -/
theorem foldl_preserve {α β : Type} {P : β → Prop} {f : β → α → β}
    (hf : ∀ st a, P st → P (f st a)) :
    ∀ (l : List α) (b : β), P b → P (l.foldl f b) := by
  intro l
  induction l with
  | nil => intro b hb; exact hb
  | cons a l ih => intro b hb; exact ih (f b a) (hf b a hb)

/-- Invariant carried through phase 1: every vertex of either ring has an
identity below the allocation counter, and is not yet checked. -/
def Phase1Inv (st : ClipState) : Prop :=
  ∀ v ∈ st.subj ++ st.clip, v.vid < st.ctr ∧ v.checked = false

/-- Membership in a ring after a splice: the new vertex or an old one. -/
theorem ringInsert_mem (p : List Vertex) (v w : Vertex) (sv ev : Nat)
    (h : w ∈ ringInsert p v sv ev) : w = v ∨ w ∈ p := by
  simp only [ringInsert] at h
  split at h
  · rcases List.mem_append.1 h with h2 | h2
    · exact Or.inr h2
    · exact Or.inl (List.mem_singleton.1 h2)
  · rcases List.mem_append.1 h with h2 | h2
    · exact Or.inr (List.take_subset _ _ h2)
    · rcases List.mem_cons.1 h2 with h3 | h3
      · exact Or.inl h3
      · exact Or.inr (List.drop_subset _ _ h3)

theorem phase1Pair_inv (sv cv : Vertex) (st : ClipState)
    (h : Phase1Inv st) : Phase1Inv (phase1Pair sv cv st) := by
  simp only [phase1Pair]
  split
  · exact h
  · rename_i pt aS aC heq
    intro w hw
    dsimp only at hw ⊢
    rcases List.mem_append.1 hw with hw | hw
    · rcases ringInsert_mem _ _ _ _ _ hw with rfl | hw2
      · exact ⟨by dsimp only; omega, rfl⟩
      · have := h w (List.mem_append_left _ hw2)
        exact ⟨by omega, this.2⟩
    · rcases ringInsert_mem _ _ _ _ _ hw with rfl | hw2
      · exact ⟨by dsimp only; omega, rfl⟩
      · have := h w (List.mem_append_right _ hw2)
        exact ⟨by omega, this.2⟩

theorem phase1_inv (s c : List Vertex) (ctr0 : Nat)
    (h0 : Phase1Inv ⟨s, c, ctr0⟩) : Phase1Inv (phase1 s c ctr0) := by
  unfold phase1
  refine foldl_preserve (fun st sv hst => ?_) s ⟨s, c, ctr0⟩ h0
  by_cases hi : sv.intersect
  · simpa [hi] using hst
  · simp only [hi, if_false]
    refine foldl_preserve (fun st2 cv hst2 => ?_) c st hst
    by_cases hc : cv.intersect
    · simpa [hc] using hst2
    · simpa [hc] using phase1Pair_inv sv cv st2 hst2

/-- Every vertex identity is bounded by `maxVid`. -/
theorem vid_le_maxVid (l : List Vertex) : ∀ v ∈ l, v.vid ≤ maxVid l := by
  induction l with
  | nil => intro v hv; cases hv
  | cons a l ih =>
      intro v hv
      rcases List.mem_cons.1 hv with rfl | hv
      · simp [maxVid]
      · calc v.vid ≤ maxVid l := ih v hv
          _ ≤ maxVid (a :: l) := by simp [maxVid]

theorem buildPoly_checked_false (base : Nat) (pts : List Point) (v : Vertex)
    (h : v ∈ buildPoly base pts) : v.checked = false := by
  obtain ⟨i, -, rfl⟩ := buildPoly_mem base pts v h
  rfl

/-- Phase 2 relabelling does not change which vertices are unprocessed
intersections. -/
theorem labelEntries_any_unprocessed (t : Bool) (l : List Vertex) :
    (labelEntries t l).any (fun v => v.intersect && !v.checked)
      = l.any (fun v => v.intersect && !v.checked) := by
  induction l generalizing t with
  | nil => rfl
  | cons v vs ih =>
      by_cases hv : v.intersect
      · simp [labelEntries, hv, ih]
      · simp [labelEntries, hv, ih]

/-- Every vertex of the relabelled ring keeps the identity of a vertex of
the original ring. -/
theorem labelEntries_mem_vid (t : Bool) (l : List Vertex) (v : Vertex)
    (h : v ∈ labelEntries t l) : ∃ w ∈ l, v.vid = w.vid := by
  induction l generalizing t with
  | nil => cases h
  | cons a vs ih =>
      by_cases ha : a.intersect
      · simp only [labelEntries, ha, if_true] at h
        rcases List.mem_cons.1 h with rfl | h2
        · exact ⟨a, by simp, rfl⟩
        · obtain ⟨w, hw, he⟩ := ih (!t) h2
          exact ⟨w, by simp [hw], he⟩
      · simp only [labelEntries, ha, if_false] at h
        rcases List.mem_cons.1 h with rfl | h2
        · exact ⟨v, by simp, rfl⟩
        · obtain ⟨w, hw, he⟩ := ih t h2
          exact ⟨w, by simp [hw], he⟩

/-- C9 as amended: whenever phase 1 discovered at least one intersection
(the claim fails only in the zero-intersection fallback, which returns the
subject ring itself), every polygon in the orchestrator's result list is
newly built from coordinate-only copies of visited vertices: each result
vertex carries only the position with fresh default flags (alpha 0, not an
intersection, entry true, unchecked, no neighbour), and is a node of
neither (mutated) input ring. -/
theorem clip_results_fresh_copies (spts cpts : List Point) (s_entry c_entry : Bool)
    (h : ∃ v ∈ (phase1 (buildPoly 0 spts) (buildPoly spts.length cpts)
        (maxVid (buildPoly 0 spts ++ buildPoly spts.length cpts) + 1)).subj,
      v.intersect = true) :
    ∀ poly ∈ Polygon.clip (buildPoly 0 spts) (buildPoly spts.length cpts)
        s_entry c_entry,
      ∀ v ∈ poly,
        (v.alpha = 0 ∧ v.intersect = false ∧ v.entry = true ∧ v.checked = false ∧
          v.neighbour = none) ∧
        ∀ w ∈ (phase1 (buildPoly 0 spts) (buildPoly spts.length cpts)
              (maxVid (buildPoly 0 spts ++ buildPoly spts.length cpts) + 1)).subj ++
            (phase1 (buildPoly 0 spts) (buildPoly spts.length cpts)
              (maxVid (buildPoly 0 spts ++ buildPoly spts.length cpts) + 1)).clip,
          v.vid ≠ w.vid := by
  set S := buildPoly 0 spts with hS
  set C := buildPoly spts.length cpts with hC
  set st := phase1 S C (maxVid (S ++ C) + 1) with hst
  have hinv : Phase1Inv st := by
    rw [hst]
    refine phase1_inv S C _ (fun v hv => ?_)
    have h1 : v.vid ≤ maxVid (S ++ C) := vid_le_maxVid (S ++ C) v hv
    have h2 : v.checked = false := by
      rcases List.mem_append.1 hv with hv2 | hv2
      · exact buildPoly_checked_false _ _ v hv2
      · exact buildPoly_checked_false _ _ v hv2
    exact ⟨by dsimp only; omega, h2⟩
  set ts := xor s_entry (isInside (st.subj.headD default) st.clip) with hts
  set s2 := labelEntries ts st.subj with hs2
  set tc := xor c_entry (isInside (st.clip.headD default) s2) with htc
  set c2 := labelEntries tc st.clip with hc2
  have hclip : Polygon.clip S C s_entry c_entry = phase3 s2 c2 st.ctr := rfl
  have hs2any : s2.any (fun v => v.intersect && !v.checked) = true := by
    rw [hs2, labelEntries_any_unprocessed, List.any_eq_true]
    obtain ⟨v, hv, hvi⟩ := h
    exact ⟨v, hv, by simp [hvi, (hinv v (List.mem_append_left _ hv)).2]⟩
  have hne : phase3Outer (s2.length + 1) s2 c2 st.ctr [] ≠ [] :=
    phase3Outer_start_ne_nil s2 c2 st.ctr hs2any
  have hphase3 : phase3 s2 c2 st.ctr
      = phase3Outer (s2.length + 1) s2 c2 st.ctr [] := by
    simp only [phase3]
    rw [if_neg (by simpa [List.isEmpty_iff] using hne)]
  intro poly hpoly v hv
  rw [hclip, hphase3] at hpoly
  have hgood := phase3Outer_goodCopies (s2.length + 1) s2 c2 st.ctr [] st.ctr
    (le_refl _) (by intro q hq; cases hq) poly hpoly v hv
  refine ⟨hgood.1, ?_⟩
  intro w hw
  have hwlt := (hinv w hw).1
  have hvge := hgood.2
  omega

set_option maxRecDepth 400000 in
/-- Witness for `clip_results_fresh_copies`: two overlapping axis-aligned
squares, whose boundaries cross at (2,1) and (1,2); phase 1 therefore
splices intersection vertices into the subject ring. -/
theorem clip_results_fresh_copies_witness :
    (∃ v ∈ (phase1 (buildPoly 0 [⟨0,0⟩, ⟨2,0⟩, ⟨2,2⟩, ⟨0,2⟩])
        (buildPoly ([⟨0,0⟩, ⟨2,0⟩, ⟨2,2⟩, ⟨0,2⟩] : List Point).length
          [⟨1,1⟩, ⟨3,1⟩, ⟨3,3⟩, ⟨1,3⟩])
        (maxVid (buildPoly 0 [⟨0,0⟩, ⟨2,0⟩, ⟨2,2⟩, ⟨0,2⟩] ++
          buildPoly ([⟨0,0⟩, ⟨2,0⟩, ⟨2,2⟩, ⟨0,2⟩] : List Point).length
            [⟨1,1⟩, ⟨3,1⟩, ⟨3,3⟩, ⟨1,3⟩]) + 1)).subj,
      v.intersect = true) ∧
    (∀ poly ∈ Polygon.clip (buildPoly 0 [⟨0,0⟩, ⟨2,0⟩, ⟨2,2⟩, ⟨0,2⟩])
        (buildPoly ([⟨0,0⟩, ⟨2,0⟩, ⟨2,2⟩, ⟨0,2⟩] : List Point).length
          [⟨1,1⟩, ⟨3,1⟩, ⟨3,3⟩, ⟨1,3⟩]) true true,
      ∀ v ∈ poly,
        (v.alpha = 0 ∧ v.intersect = false ∧ v.entry = true ∧ v.checked = false ∧
          v.neighbour = none) ∧
        ∀ w ∈ (phase1 (buildPoly 0 [⟨0,0⟩, ⟨2,0⟩, ⟨2,2⟩, ⟨0,2⟩])
              (buildPoly ([⟨0,0⟩, ⟨2,0⟩, ⟨2,2⟩, ⟨0,2⟩] : List Point).length
                [⟨1,1⟩, ⟨3,1⟩, ⟨3,3⟩, ⟨1,3⟩])
              (maxVid (buildPoly 0 [⟨0,0⟩, ⟨2,0⟩, ⟨2,2⟩, ⟨0,2⟩] ++
                buildPoly ([⟨0,0⟩, ⟨2,0⟩, ⟨2,2⟩, ⟨0,2⟩] : List Point).length
                  [⟨1,1⟩, ⟨3,1⟩, ⟨3,3⟩, ⟨1,3⟩]) + 1)).subj ++
            (phase1 (buildPoly 0 [⟨0,0⟩, ⟨2,0⟩, ⟨2,2⟩, ⟨0,2⟩])
              (buildPoly ([⟨0,0⟩, ⟨2,0⟩, ⟨2,2⟩, ⟨0,2⟩] : List Point).length
                [⟨1,1⟩, ⟨3,1⟩, ⟨3,3⟩, ⟨1,3⟩])
              (maxVid (buildPoly 0 [⟨0,0⟩, ⟨2,0⟩, ⟨2,2⟩, ⟨0,2⟩] ++
                buildPoly ([⟨0,0⟩, ⟨2,0⟩, ⟨2,2⟩, ⟨0,2⟩] : List Point).length
                  [⟨1,1⟩, ⟨3,1⟩, ⟨3,3⟩, ⟨1,3⟩]) + 1)).clip,
          v.vid ≠ w.vid) := by
  have hex : ∃ v ∈ (phase1 (buildPoly 0 [⟨0,0⟩, ⟨2,0⟩, ⟨2,2⟩, ⟨0,2⟩])
      (buildPoly ([⟨0,0⟩, ⟨2,0⟩, ⟨2,2⟩, ⟨0,2⟩] : List Point).length
        [⟨1,1⟩, ⟨3,1⟩, ⟨3,3⟩, ⟨1,3⟩])
      (maxVid (buildPoly 0 [⟨0,0⟩, ⟨2,0⟩, ⟨2,2⟩, ⟨0,2⟩] ++
        buildPoly ([⟨0,0⟩, ⟨2,0⟩, ⟨2,2⟩, ⟨0,2⟩] : List Point).length
          [⟨1,1⟩, ⟨3,1⟩, ⟨3,3⟩, ⟨1,3⟩]) + 1)).subj,
      v.intersect = true := by
    with_unfolding_all decide
  exact ⟨hex, clip_results_fresh_copies [⟨0,0⟩, ⟨2,0⟩, ⟨2,2⟩, ⟨0,2⟩]
    [⟨1,1⟩, ⟨3,1⟩, ⟨3,3⟩, ⟨1,3⟩] true true hex⟩

/-- Reduction of a remainder known to be below twice the modulus. -/
theorem mod_two_cases (x n : Nat) (h2 : x < 2 * n) :
    x % n = if x < n then x else x - n := by
  by_cases h : x < n
  · rw [if_pos h, Nat.mod_eq_of_lt h]
  · rw [if_neg h, Nat.mod_eq_sub_mod (by omega), Nat.mod_eq_of_lt (by omega)]

/-- The `Polygon.next` walk, started at ring position `s`, lands on the
first non-intersection position reached going forward cyclically: if the
`d` positions after `s` (cyclically) are all intersections and position
`(s+d) mod n` is not, the walk stops exactly there (given enough fuel). -/
theorem skipInter_reaches (p : List Vertex) :
    ∀ d s fuel, s < p.length →
      (p.getD ((s + d) % p.length) default).intersect = false →
      (∀ t, t < d → (p.getD ((s + t) % p.length) default).intersect = true) →
      d < fuel →
      skipInter p fuel s = (s + d) % p.length := by
  intro d
  induction d with
  | zero =>
      intro s fuel hs hb hgap hfuel
      cases fuel with
      | zero => omega
      | succ f =>
          have hs0 : (s + 0) % p.length = s := by
            rw [Nat.add_zero, Nat.mod_eq_of_lt hs]
          rw [hs0] at hb
          have hstep : skipInter p (f + 1) s
              = if (p.getD s default).intersect = true
                then skipInter p f ((s + 1) % p.length) else s := rfl
          rw [hstep, hb, if_neg (by simp)]
          exact hs0.symm
  | succ d ih =>
      intro s fuel hs hb hgap hfuel
      cases fuel with
      | zero => omega
      | succ f =>
          have h0 : (p.getD s default).intersect = true := by
            have := hgap 0 (Nat.succ_pos d)
            rwa [Nat.add_zero, Nat.mod_eq_of_lt hs] at this
          have hn : 0 < p.length := by omega
          have hs' : (s + 1) % p.length < p.length := Nat.mod_lt _ hn
          have hmod : ∀ t : Nat,
              ((s + 1) % p.length + t) % p.length = (s + (t + 1)) % p.length := by
            intro t
            rw [Nat.mod_add_mod]
            congr 1
            omega
          have hb' : (p.getD (((s + 1) % p.length + d) % p.length)
              default).intersect = false := by
            rw [hmod d]
            exact hb
          have hgap' : ∀ t, t < d →
              (p.getD (((s + 1) % p.length + t) % p.length)
                default).intersect = true := by
            intro t ht
            rw [hmod t]
            exact hgap (t + 1) (by omega)
          have hrec := ih ((s + 1) % p.length) f hs' hb' hgap' (by omega)
          calc skipInter p (f + 1) s
              = skipInter p f ((s + 1) % p.length) := by
                  have hstep : skipInter p (f + 1) s
                      = if (p.getD s default).intersect = true
                        then skipInter p f ((s + 1) % p.length) else s := rfl
                  rw [hstep, h0, if_pos rfl]
            _ = ((s + 1) % p.length + d) % p.length := hrec
            _ = (s + (d + 1)) % p.length := hmod d

/-- Ring positions of the original (non-intersection) vertices, in ring
order. -/
def origIdx (p : List Vertex) : List Nat :=
  (List.range p.length).filter (fun i => !(p.getD i default).intersect)

theorem origIdx_sorted (p : List Vertex) :
    List.Sorted (· < ·) (origIdx p) :=
  (List.pairwise_lt_range _).sublist (List.filter_sublist _)

theorem mem_origIdx (p : List Vertex) (a : Nat) :
    a ∈ origIdx p ↔ a < p.length ∧ (p.getD a default).intersect = false := by
  simp [origIdx, List.mem_filter, List.mem_range]

/-- In a strictly sorted list, no member lies strictly between two
adjacent entries. -/
theorem sorted_no_middle (l : List Nat) (hs : List.Sorted (· < ·) l)
    (i j : Fin l.length) (hij : (i : Nat) + 1 = j) (m : Nat) (hm : m ∈ l) :
    ¬ (l.get i < m ∧ m < l.get j) := by
  rintro ⟨h1, h2⟩
  obtain ⟨k, hk⟩ := List.mem_iff_get.1 hm
  rcases lt_trichotomy (k : Nat) i with hki | hki | hki
  · have := hs.rel_get_of_lt (show k < i from hki)
    omega
  · have : l.get k = l.get i := by congr 1; exact Fin.ext hki
    omega
  · rcases Nat.lt_or_ge (j : Nat) k with hjk | hjk
    · have := hs.rel_get_of_lt (show j < k from hjk)
      omega
    · have hkj : (k : Nat) = j := by omega
      have : l.get k = l.get j := by congr 1; exact Fin.ext hkj
      omega

/-- In a strictly sorted list the last entry is the maximum. -/
theorem sorted_last_max (l : List Nat) (hs : List.Sorted (· < ·) l)
    (hl : 0 < l.length) (x : Nat) (hx : x ∈ l) :
    x ≤ l.get ⟨l.length - 1, by omega⟩ := by
  obtain ⟨k, hk⟩ := List.mem_iff_get.1 hx
  rcases Nat.lt_or_ge (k : Nat) (l.length - 1) with hlt | hge
  · have := hs.rel_get_of_lt
      (show k < (⟨l.length - 1, by omega⟩ : Fin l.length) from hlt)
    omega
  · have hkeq : (k : Nat) = l.length - 1 := by omega
    have : l.get k = l.get ⟨l.length - 1, by omega⟩ := by
      congr 1
      exact Fin.ext hkeq
    omega

/-- In a strictly sorted list the first entry is the minimum. -/
theorem sorted_head_min (l : List Nat) (hs : List.Sorted (· < ·) l)
    (hl : 0 < l.length) (x : Nat) (hx : x ∈ l) :
    l.get ⟨0, hl⟩ ≤ x := by
  obtain ⟨k, hk⟩ := List.mem_iff_get.1 hx
  rcases Nat.eq_zero_or_pos (k : Nat) with hzero | hpos
  · have : l.get k = l.get ⟨0, hl⟩ := by
      congr 1
      exact Fin.ext hzero
    omega
  · have := hs.rel_get_of_lt (show (⟨0, hl⟩ : Fin l.length) < k from hpos)
    omega

/-- The `Polygon.next(v.next)` skip maps each original position to the
cyclically next original position: started just after the `i`-th entry of
`origIdx`, it stops exactly at the `((i+1) mod count)`-th entry. -/
theorem skipInter_origIdx (p : List Vertex) (i : Nat)
    (hi : i < (origIdx p).length) :
    skipInter p p.length (((origIdx p).get ⟨i, hi⟩ + 1) % p.length)
      = (origIdx p).get ⟨(i + 1) % (origIdx p).length,
          Nat.mod_lt _ (by omega)⟩ := by
  have hsorted := origIdx_sorted p
  have hget_mem : ∀ (k : Fin (origIdx p).length),
      (origIdx p).get k ∈ origIdx p := fun k => List.get_mem _ _ k.isLt
  set l := origIdx p with hl
  have haP := (mem_origIdx p _).1 (hget_mem ⟨i, hi⟩)
  set a := l.get ⟨i, hi⟩ with hadef
  have han : a < p.length := haP.1
  have hn : 0 < p.length := by omega
  by_cases hwrap : i + 1 < l.length
  · have hmodidx : (i + 1) % l.length = i + 1 := Nat.mod_eq_of_lt hwrap
    have hb_eq : l.get ⟨(i + 1) % l.length, Nat.mod_lt _ (by omega)⟩
        = l.get ⟨i + 1, hwrap⟩ := by
      congr 1
      exact Fin.ext hmodidx
    rw [hb_eq]
    set b := l.get ⟨i + 1, hwrap⟩ with hbdef
    have hbP := (mem_origIdx p _).1 (hget_mem ⟨i + 1, hwrap⟩)
    have hbn : b < p.length := hbP.1
    have hab : a < b := hsorted.rel_get_of_lt
      (show (⟨i, hi⟩ : Fin l.length) < ⟨i + 1, hwrap⟩ from Nat.lt_succ_self i)
    have ha1 : a + 1 < p.length := by omega
    rw [Nat.mod_eq_of_lt ha1]
    have hbase : (p.getD ((a + 1 + (b - a - 1)) % p.length)
        default).intersect = false := by
      rw [show a + 1 + (b - a - 1) = b from by omega, Nat.mod_eq_of_lt hbn]
      exact hbP.2
    have hgap : ∀ t, t < b - a - 1 →
        (p.getD ((a + 1 + t) % p.length) default).intersect = true := by
      intro t ht
      rw [Nat.mod_eq_of_lt (show a + 1 + t < p.length from by omega)]
      by_contra hfalse
      have hmem : a + 1 + t ∈ l := (mem_origIdx p _).2
        ⟨by omega, by simpa using hfalse⟩
      exact sorted_no_middle l hsorted ⟨i, hi⟩ ⟨i + 1, hwrap⟩ rfl _ hmem
        ⟨by omega, by omega⟩
    have hres := skipInter_reaches p (b - a - 1) (a + 1) p.length (by omega)
      hbase hgap (by omega)
    rw [show a + 1 + (b - a - 1) = b from by omega,
      Nat.mod_eq_of_lt hbn] at hres
    exact hres
  · have hieq : i + 1 = l.length := by omega
    have hlen0 : 0 < l.length := by omega
    have hmodidx : (i + 1) % l.length = 0 := by rw [hieq, Nat.mod_self]
    have hb_eq : l.get ⟨(i + 1) % l.length, Nat.mod_lt _ (by omega)⟩
        = l.get ⟨0, hlen0⟩ := by
      congr 1
      exact Fin.ext hmodidx
    rw [hb_eq]
    set b := l.get ⟨0, hlen0⟩ with hbdef
    have hbP := (mem_origIdx p _).1 (hget_mem ⟨0, hlen0⟩)
    have hbn : b < p.length := hbP.1
    have hmax : ∀ x ∈ l, x ≤ a := by
      intro x hx
      have h1 := sorted_last_max l hsorted hlen0 x hx
      have h2 : a = l.get ⟨l.length - 1, by omega⟩ := by
        rw [hadef]
        congr 1
        exact Fin.mk_eq_mk.2 (by omega)
      rw [h2]
      exact h1
    have hmin : ∀ x ∈ l, b ≤ x := fun x hx =>
      sorted_head_min l hsorted hlen0 x hx
    have hba : b ≤ a := hmax b (hget_mem ⟨0, hlen0⟩)
    by_cases ha1 : a + 1 < p.length
    · rw [Nat.mod_eq_of_lt ha1]
      have hbase : (p.getD ((a + 1 + (b + p.length - a - 1)) % p.length)
          default).intersect = false := by
        rw [show a + 1 + (b + p.length - a - 1) = b + p.length from by omega,
          Nat.add_mod_right, Nat.mod_eq_of_lt hbn]
        exact hbP.2
      have hgap : ∀ t, t < b + p.length - a - 1 →
          (p.getD ((a + 1 + t) % p.length) default).intersect = true := by
        intro t ht
        rw [mod_two_cases _ _ (by omega)]
        by_cases hlt : a + 1 + t < p.length
        · rw [if_pos hlt]
          by_contra hfalse
          have hmem : a + 1 + t ∈ l := (mem_origIdx p _).2
            ⟨hlt, by simpa using hfalse⟩
          have := hmax _ hmem
          omega
        · rw [if_neg hlt]
          by_contra hfalse
          have hmem : a + 1 + t - p.length ∈ l := (mem_origIdx p _).2
            ⟨by omega, by simpa using hfalse⟩
          have := hmin _ hmem
          omega
      have hres := skipInter_reaches p (b + p.length - a - 1) (a + 1) p.length
        (by omega) hbase hgap (by omega)
      rw [show a + 1 + (b + p.length - a - 1) = b + p.length from by omega,
        Nat.add_mod_right, Nat.mod_eq_of_lt hbn] at hres
      exact hres
    · have hstart : (a + 1) % p.length = 0 := by
        rw [show a + 1 = p.length from by omega, Nat.mod_self]
      rw [hstart]
      have hbase : (p.getD ((0 + b) % p.length) default).intersect = false := by
        rw [Nat.zero_add, Nat.mod_eq_of_lt hbn]
        exact hbP.2
      have hgap : ∀ t, t < b →
          (p.getD ((0 + t) % p.length) default).intersect = true := by
        intro t ht
        rw [Nat.zero_add, Nat.mod_eq_of_lt (by omega)]
        by_contra hfalse
        have hmem : t ∈ l := (mem_origIdx p _).2 ⟨by omega, by simpa using hfalse⟩
        have := hmin _ hmem
        omega
      have hres := skipInter_reaches p b 0 p.length (by omega) hbase hgap
        (by omega)
      rw [Nat.zero_add, Nat.mod_eq_of_lt hbn] at hres
      exact hres

/-- A filtered list is the image of the filtered index range. -/
theorem filter_eq_map_range {α : Type} (pr : α → Bool) (d : α) :
    ∀ l : List α,
      l.filter pr
        = ((List.range l.length).filter (fun i => pr (l.getD i d))).map
            (fun i => l.getD i d) := by
  intro l
  induction l with
  | nil => rfl
  | cons a l ih =>
      have hg : ((fun i => (a :: l).getD i d) ∘ Nat.succ)
          = fun i : Nat => l.getD i d := by
        funext i
        rfl
      have hc : ((fun i => pr ((a :: l).getD i d)) ∘ Nat.succ)
          = fun i : Nat => pr (l.getD i d) := by
        funext i
        rfl
      rw [List.length_cons, List.range_succ_eq_map, List.filter_cons,
        List.filter_cons]
      have hd0 : (a :: l).getD 0 d = a := rfl
      rw [hd0, List.filter_map]
      by_cases hpa : pr a
      · rw [if_pos hpa, if_pos hpa, List.map_cons, ih, List.map_map, hg, hc, hd0]
      · rw [if_neg hpa, if_neg hpa, ih, List.map_map, hg, hc]

/-- Mapping the edge-endpoint skip over the original positions rotates
the position list by one: the skips enumerate exactly the cyclically
consecutive pairs of original vertices. -/
theorem map_skip_origIdx (p : List Vertex) :
    (origIdx p).map (fun a => skipInter p p.length ((a + 1) % p.length))
      = (origIdx p).rotate 1 := by
  apply List.ext_get
  · simp
  · intro i h1 h2
    rw [List.get_map, List.get_rotate]
    exact skipInter_origIdx p i (by simpa using h1)

/-- Counting respects pointwise equal predicates. -/
theorem countP_congr_list {α : Type} (l : List α) (pq pr : α → Bool)
    (h : ∀ a ∈ l, pq a = pr a) : l.countP pq = l.countP pr := by
  induction l with
  | nil => rfl
  | cons a l ih =>
      rw [List.countP_cons, List.countP_cons, h a (by simp),
        ih (fun x hx => h x (by simp [hx]))]

/-- C3: the inside test runs the segment intersection test between the
segment from the vertex to the synthetic ray endpoint (x = 1000000, same
y) and every original (non-intersection) edge of the polygon — the pairs
of cyclically consecutive original vertices — counts the successes, and
classifies the vertex as inside exactly when the count is odd. -/
theorem isInside_characterisation (v : Vertex) (p : List Vertex) :
    isInside v p = true ↔
      Odd (((p.filter (fun q => !q.intersect)).zip
          ((p.filter (fun q => !q.intersect)).rotate 1)).countP
        (fun e => (intersect v.pt ⟨1000000, v.y⟩ e.1.pt e.2.pt).isSome)) := by
  have hcode : isInside v p = true ↔
      Odd ((List.range p.length).countP fun i =>
        !(p.getD i default).intersect &&
          (intersect v.pt ⟨1000000, v.y⟩ (p.getD i default).pt
            (p.getD (nextOrigIdx p i) default).pt).isSome) := by
    rw [show isInside v p
        = ((((List.range p.length).countP fun i =>
            !(p.getD i default).intersect &&
              (intersect v.pt ⟨1000000, v.y⟩ (p.getD i default).pt
                (p.getD (nextOrigIdx p i) default).pt).isSome) % 2) != 0)
      from rfl]
    rw [bne_iff_ne, Nat.odd_iff]
    constructor
    · intro h
      omega
    · intro h
      omega
  rw [hcode]
  have hcount : ((List.range p.length).countP fun i =>
        !(p.getD i default).intersect &&
          (intersect v.pt ⟨1000000, v.y⟩ (p.getD i default).pt
            (p.getD (nextOrigIdx p i) default).pt).isSome)
      = ((p.filter (fun q => !q.intersect)).zip
          ((p.filter (fun q => !q.intersect)).rotate 1)).countP
        (fun e => (intersect v.pt ⟨1000000, v.y⟩ e.1.pt e.2.pt).isSome) := by
    rw [filter_eq_map_range (fun q => !q.intersect) default p]
    rw [show ((List.range p.length).filter
        (fun i => !(p.getD i default).intersect)) = origIdx p from rfl]
    rw [← List.map_rotate, ← map_skip_origIdx, List.map_map]
    rw [show ((origIdx p).map (fun i => p.getD i default)).zip
          ((origIdx p).map ((fun i => p.getD i default) ∘
            (fun a => skipInter p p.length ((a + 1) % p.length))))
        = (origIdx p).map (fun a => (p.getD a default,
            p.getD (skipInter p p.length ((a + 1) % p.length)) default))
      from List.zip_map' _ _ _]
    rw [List.countP_map]
    rw [show ((fun e : Vertex × Vertex =>
          (intersect v.pt ⟨1000000, v.y⟩ e.1.pt e.2.pt).isSome) ∘
        (fun a => (p.getD a default,
          p.getD (skipInter p p.length ((a + 1) % p.length)) default)))
      = fun a => (intersect v.pt ⟨1000000, v.y⟩ (p.getD a default).pt
          (p.getD (nextOrigIdx p a) default).pt).isSome from rfl]
    rw [show (origIdx p) = (List.range p.length).filter
        (fun i => !(p.getD i default).intersect) from rfl]
    rw [List.countP_filter]
    refine countP_congr_list _ _ _ (fun a _ => ?_)
    rw [Bool.and_comm]
  rw [hcount]

/-- Pointer-level model of the `Polygon` circular doubly linked list.
`verts` lists the vertex objects (by identity) that have been linked into
the ring, `first` is the anchor pointer, and `nxt`, `prv`, `alph` give
each object's `next` pointer, `prev` pointer and `alpha` attribute.
Values of `nxt`/`prv` outside `verts` are meaningless (objects not yet
linked carry `None` pointers in Python). -/
structure LinkedRing where
  verts : List Nat
  first : Option Nat
  nxt : Nat → Nat
  prv : Nat → Nat
  alph : Nat → ℚ

/-- A polygon as created by `Polygon()`: no vertices, `first = None`. -/
def emptyRing : LinkedRing :=
  ⟨[], none, fun _ => 0, fun _ => 0, fun _ => 0⟩

/-- Embedding of `Polygon.add(vertex)` at the pointer level, for a fresh
vertex object `v` with alpha `a`.  Mirrors the Python assignment order
(`next = first; prev = next.prev; next.prev = v; v.next = next;
v.prev = prev; prev.next = v`): reads happen before writes, and a later
write to the same pointer wins, which is what the nesting of the
conditionals encodes. -/
def LinkedRing.add (r : LinkedRing) (v : Nat) (a : ℚ) : LinkedRing :=
  match r.first with
  | none =>
      { verts := [v], first := some v,
        nxt := fun w => if w = v then v else r.nxt w,
        prv := fun w => if w = v then v else r.prv w,
        alph := fun w => if w = v then a else r.alph w }
  | some f =>
      let pv := r.prv f
      { verts := v :: r.verts, first := r.first,
        nxt := fun w => if w = pv then v else if w = v then f else r.nxt w,
        prv := fun w => if w = v then pv else if w = f then v else r.prv w,
        alph := fun w => if w = v then a else r.alph w }

/-- The walk of `Polygon.insert`: advance from `start` while the current
vertex is not `end` and its alpha is below the inserted vertex's alpha. -/
def ringWalk (r : LinkedRing) (a : ℚ) (endv : Nat) : Nat → Nat → Nat
  | 0, c => c
  | fuel + 1, c =>
      if c = endv ∨ ¬ (r.alph c < a) then c
      else ringWalk r a endv fuel (r.nxt c)

/-- Embedding of `Polygon.insert(vertex, start, end)` at the pointer
level, for a fresh vertex object `v` with alpha `a`.  After the walk the
Python code performs `v.next = curr; prev = curr.prev; v.prev = prev;
prev.next = v; curr.prev = v`; again a later write to the same pointer
wins. -/
def LinkedRing.insert (r : LinkedRing) (v : Nat) (a : ℚ) (startv endv : Nat) : LinkedRing :=
  let curr := ringWalk r a endv (r.verts.length + 1) startv
  let pv := r.prv curr
  { verts := v :: r.verts, first := r.first,
    nxt := fun w => if w = pv then v else if w = v then curr else r.nxt w,
    prv := fun w => if w = curr then v else if w = v then pv else r.prv w,
    alph := fun w => if w = v then a else r.alph w }

/-- One mutation of the ring: an `add` call or an `insert` call. -/
inductive RingOp where
  | add (v : Nat) (a : ℚ)
  | insert (v : Nat) (a : ℚ) (startv endv : Nat)
deriving DecidableEq, Repr

def applyOp (r : LinkedRing) : RingOp → LinkedRing
  | .add v a => r.add v a
  | .insert v a s e => r.insert v a s e

def applyOps (r : LinkedRing) (ops : List RingOp) : LinkedRing :=
  ops.foldl applyOp r

/-- Call validity, as in the Python usage: the added or inserted vertex is
a freshly constructed object (not yet in any ring), and `insert` is given
a `start` vertex that belongs to the ring. -/
def validOp (r : LinkedRing) : RingOp → Bool
  | .add v _ => !(r.verts.contains v)
  | .insert v _ s _ => !(r.verts.contains v) && r.verts.contains s

def validOps : LinkedRing → List RingOp → Bool
  | _, [] => true
  | r, op :: ops => validOp r op && validOps (applyOp r op) ops

/-- The circular doubly-linked-list invariant: every linked vertex's
pointers stay inside the ring and are mutually inverse
(`v.next.prev == v` and `v.prev.next == v`), and a vertex alone in its
ring is linked to itself. -/
def DoublyLinked (r : LinkedRing) : Prop :=
  ∀ v ∈ r.verts, r.nxt v ∈ r.verts ∧ r.prv v ∈ r.verts ∧
    r.prv (r.nxt v) = v ∧ r.nxt (r.prv v) = v ∧
    (r.verts = [v] → r.nxt v = v ∧ r.prv v = v)

/-- Full invariant: doubly linked, plus the anchor is a ring member (and
absent exactly on the empty ring). -/
def RingInv (r : LinkedRing) : Prop :=
  DoublyLinked r ∧
    (match r.first with
     | none => r.verts = []
     | some f => f ∈ r.verts)

theorem ringInv_empty : RingInv emptyRing := by
  constructor
  · intro v hv
    cases hv
  · rfl

/-- Adding a fresh vertex (`Polygon.add`) preserves the ring invariant. -/
theorem add_preserves (r : LinkedRing) (v : Nat) (a : ℚ)
    (hv : v ∉ r.verts) (h : RingInv r) : RingInv (r.add v a) := by
  obtain ⟨hdl, hfirst⟩ := h
  unfold LinkedRing.add
  cases hf : r.first with
  | none =>
      constructor
      · intro w hw
        dsimp only at hw
        rcases List.mem_singleton.1 hw with rfl
        refine ⟨?_, ?_, ?_, ?_, ?_⟩ <;> simp
      · simp
  | some f =>
      have hfm : f ∈ r.verts := by
        have h2 := hfirst
        rw [hf] at h2
        exact h2
      have hd := hdl f hfm
      have hpvm : r.prv f ∈ r.verts := hd.2.1
      have hnxtpv : r.nxt (r.prv f) = f := hd.2.2.2.1
      have hvf : v ≠ f := fun hh => hv (hh ▸ hfm)
      have hvpv : v ≠ r.prv f := fun hh => hv (hh ▸ hpvm)
      have hne : r.verts ≠ [] := fun hh => by
        rw [hh] at hfm
        cases hfm
      dsimp only
      constructor
      · intro w hw
        dsimp only at hw ⊢
        have hsing : ¬ (v :: r.verts = [w]) := by
          intro hs
          injection hs with h1 h2
          exact hne h2
        rcases List.mem_cons.1 hw with hwv | hwm
        · subst hwv
          refine ⟨?_, ?_, ?_, ?_, ?_⟩
          · rw [if_neg hvpv, if_pos rfl]
            exact List.mem_cons_of_mem _ hfm
          · rw [if_pos rfl]
            exact List.mem_cons_of_mem _ hpvm
          · rw [if_neg hvpv, if_pos rfl, if_neg (Ne.symm hvf), if_pos rfl]
          · rw [if_pos rfl, if_pos rfl]
          · intro hs
            exact absurd hs hsing
        · have hwv : w ≠ v := fun hh => hv (hh ▸ hwm)
          have hdw := hdl w hwm
          have hnw : r.nxt w ∈ r.verts := hdw.1
          have hpw : r.prv w ∈ r.verts := hdw.2.1
          have hpnw : r.prv (r.nxt w) = w := hdw.2.2.1
          have hnpw : r.nxt (r.prv w) = w := hdw.2.2.2.1
          have hnwv : r.nxt w ≠ v := fun hh => hv (hh ▸ hnw)
          have hpwv : r.prv w ≠ v := fun hh => hv (hh ▸ hpw)
          refine ⟨?_, ?_, ?_, ?_, ?_⟩
          · by_cases hwpv : w = r.prv f
            · rw [if_pos hwpv]
              exact List.mem_cons_self _ _
            · rw [if_neg hwpv, if_neg hwv]
              exact List.mem_cons_of_mem _ hnw
          · by_cases hwf : w = f
            · rw [if_neg hwv, if_pos hwf]
              exact List.mem_cons_self _ _
            · rw [if_neg hwv, if_neg hwf]
              exact List.mem_cons_of_mem _ hpw
          · by_cases hwpv : w = r.prv f
            · rw [if_pos hwpv, if_pos rfl]
              exact hwpv.symm
            · rw [if_neg hwpv, if_neg hwv]
              by_cases hnwf : r.nxt w = f
              · exfalso
                apply hwpv
                rw [← hpnw, hnwf]
              · rw [if_neg hnwv, if_neg hnwf]
                exact hpnw
          · by_cases hwf : w = f
            · rw [if_neg hwv, if_pos hwf, if_neg hvpv, if_pos rfl]
              exact hwf.symm
            · rw [if_neg hwv, if_neg hwf]
              by_cases hpwpv : r.prv w = r.prv f
              · exfalso
                apply hwf
                rw [← hnpw, hpwpv]
                exact hnxtpv
              · rw [if_neg hpwpv, if_neg hpwv]
                exact hnpw
          · intro hs
            exact absurd hs hsing
      · dsimp only
        exact List.mem_cons_of_mem _ hfm

/-- The insert walk never leaves the ring. -/
theorem ringWalk_mem (r : LinkedRing) (a : ℚ) (endv : Nat)
    (hcl : ∀ x ∈ r.verts, r.nxt x ∈ r.verts) :
    ∀ fuel c, c ∈ r.verts → ringWalk r a endv fuel c ∈ r.verts := by
  intro fuel
  induction fuel with
  | zero => intro c hc; exact hc
  | succ fuel ih =>
      intro c hc
      rw [show ringWalk r a endv (fuel + 1) c
          = if c = endv ∨ ¬ (r.alph c < a) then c
            else ringWalk r a endv fuel (r.nxt c) from rfl]
      split
      · exact hc
      · exact ih (r.nxt c) (hcl c hc)

/-- Inserting a fresh vertex (`Polygon.insert`) with a ring member as the
walk's start preserves the ring invariant, wherever the walk stops. -/
theorem insert_preserves (r : LinkedRing) (v : Nat) (a : ℚ) (s e : Nat)
    (hv : v ∉ r.verts) (hs : s ∈ r.verts) (h : RingInv r) :
    RingInv (r.insert v a s e) := by
  obtain ⟨hdl, hfirst⟩ := h
  unfold LinkedRing.insert
  have hcurr : ringWalk r a e (r.verts.length + 1) s ∈ r.verts :=
    ringWalk_mem r a e (fun x hx => (hdl x hx).1) _ s hs
  set curr := ringWalk r a e (r.verts.length + 1) s with hcurrdef
  have hd := hdl curr hcurr
  have hpvm : r.prv curr ∈ r.verts := hd.2.1
  have hnxtpv : r.nxt (r.prv curr) = curr := hd.2.2.2.1
  have hvc : v ≠ curr := fun hh => hv (hh ▸ hcurr)
  have hvpv : v ≠ r.prv curr := fun hh => hv (hh ▸ hpvm)
  have hne : r.verts ≠ [] := fun hh => by
    rw [hh] at hs
    cases hs
  dsimp only
  constructor
  · intro w hw
    dsimp only at hw ⊢
    have hsing : ¬ (v :: r.verts = [w]) := by
      intro hs2
      injection hs2 with h1 h2
      exact hne h2
    rcases List.mem_cons.1 hw with hwv | hwm
    · subst hwv
      refine ⟨?_, ?_, ?_, ?_, ?_⟩
      · rw [if_neg hvpv, if_pos rfl]
        exact List.mem_cons_of_mem _ hcurr
      · rw [if_neg hvc, if_pos rfl]
        exact List.mem_cons_of_mem _ hpvm
      · rw [if_neg hvpv, if_pos rfl, if_pos rfl]
      · rw [if_neg hvc, if_pos rfl, if_pos rfl]
      · intro hs2
        exact absurd hs2 hsing
    · have hwv : w ≠ v := fun hh => hv (hh ▸ hwm)
      have hdw := hdl w hwm
      have hnw : r.nxt w ∈ r.verts := hdw.1
      have hpw : r.prv w ∈ r.verts := hdw.2.1
      have hpnw : r.prv (r.nxt w) = w := hdw.2.2.1
      have hnpw : r.nxt (r.prv w) = w := hdw.2.2.2.1
      have hnwv : r.nxt w ≠ v := fun hh => hv (hh ▸ hnw)
      have hpwv : r.prv w ≠ v := fun hh => hv (hh ▸ hpw)
      refine ⟨?_, ?_, ?_, ?_, ?_⟩
      · by_cases hwpv : w = r.prv curr
        · rw [if_pos hwpv]
          exact List.mem_cons_self _ _
        · rw [if_neg hwpv, if_neg hwv]
          exact List.mem_cons_of_mem _ hnw
      · by_cases hwc : w = curr
        · rw [if_pos hwc]
          exact List.mem_cons_self _ _
        · rw [if_neg hwc, if_neg hwv]
          exact List.mem_cons_of_mem _ hpw
      · by_cases hwpv : w = r.prv curr
        · rw [if_pos hwpv, if_neg hvc, if_pos rfl]
          exact hwpv.symm
        · rw [if_neg hwpv, if_neg hwv]
          by_cases hnwc : r.nxt w = curr
          · exfalso
            apply hwpv
            rw [← hpnw, hnwc]
          · rw [if_neg hnwc, if_neg hnwv]
            exact hpnw
      · by_cases hwc : w = curr
        · rw [if_pos hwc, if_neg hvpv, if_pos rfl]
          exact hwc.symm
        · rw [if_neg hwc, if_neg hwv]
          by_cases hpwpv : r.prv w = r.prv curr
          · exfalso
            apply hwc
            rw [← hnpw, hpwpv]
            exact hnxtpv
          · rw [if_neg hpwpv, if_neg hpwv]
            exact hnpw
      · intro hs2
        exact absurd hs2 hsing
  · dsimp only
    cases hf : r.first with
    | none =>
        exfalso
        have h2 := hfirst
        rw [hf] at h2
        rw [h2] at hs
        cases hs
    | some f =>
        have h2 := hfirst
        rw [hf] at h2
        exact List.mem_cons_of_mem _ h2

/-- Applying any valid sequence of `add`/`insert` calls preserves the
ring invariant. -/
theorem applyOps_preserves (ops : List RingOp) :
    ∀ r, validOps r ops = true → RingInv r → RingInv (applyOps r ops) := by
  induction ops with
  | nil => intro r _ h; exact h
  | cons op ops ih =>
      intro r hval h
      rw [show validOps r (op :: ops)
          = (validOp r op && validOps (applyOp r op) ops) from rfl,
        Bool.and_eq_true] at hval
      obtain ⟨h1, h2⟩ := hval
      have hstep : RingInv (applyOp r op) := by
        cases op with
        | add v a =>
            have hv : v ∉ r.verts := by
              simpa [validOp] using h1
            exact add_preserves r v a hv h
        | insert v a s e =>
            rw [show validOp r (RingOp.insert v a s e)
                = (!(r.verts.contains v) && r.verts.contains s) from rfl,
              Bool.and_eq_true] at h1
            have hv : v ∉ r.verts := by
              simpa using h1.1
            have hsm : s ∈ r.verts := by
              simpa using h1.2
            exact insert_preserves r v a s e hv hsm h
      exact ih (applyOp r op) h2 hstep

/-- A prefix of a valid call sequence is valid. -/
theorem validOps_take (ops : List RingOp) :
    ∀ r k, validOps r ops = true → validOps r (ops.take k) = true := by
  induction ops with
  | nil =>
      intro r k h
      rw [List.take_nil]
      exact h
  | cons op ops ih =>
      intro r k h
      cases k with
      | zero => rfl
      | succ k =>
          rw [List.take_succ_cons]
          rw [show validOps r (op :: ops)
              = (validOp r op && validOps (applyOp r op) ops) from rfl,
            Bool.and_eq_true] at h
          rw [show validOps r (op :: ops.take k)
              = (validOp r op && validOps (applyOp r op) (ops.take k)) from rfl,
            Bool.and_eq_true]
          exact ⟨h.1, ih _ k h.2⟩

/-- C10: the circular doubly-linked ring invariant — every vertex of a
non-empty ring satisfies `v.next.prev == v` and `v.prev.next == v` (with
the pointers staying inside the ring), and a single added vertex is
linked to itself — holds after every `add` and every `insert` call, for
every valid sequence of such calls starting from an empty polygon. -/
theorem ring_links_invariant (ops : List RingOp)
    (h : validOps emptyRing ops = true) (k : Nat) :
    DoublyLinked (applyOps emptyRing (ops.take k)) :=
  (applyOps_preserves (ops.take k) emptyRing (validOps_take ops emptyRing k h)
    ringInv_empty).1

/-- Witness for `ring_links_invariant`: three `add` calls followed by an
alpha-sorted `insert` between vertices 0 and 1. -/
theorem ring_links_invariant_witness :
    validOps emptyRing
      [RingOp.add 0 0, RingOp.add 1 0, RingOp.add 2 0,
        RingOp.insert 3 (1/2) 0 1] = true ∧
    DoublyLinked (applyOps emptyRing
      ([RingOp.add 0 0, RingOp.add 1 0, RingOp.add 2 0,
        RingOp.insert 3 (1/2) 0 1].take 4)) :=
  ⟨by with_unfolding_all decide,
    ring_links_invariant
      [RingOp.add 0 0, RingOp.add 1 0, RingOp.add 2 0,
        RingOp.insert 3 (1/2) 0 1]
      (by with_unfolding_all decide) 4⟩
